import Mathlib

/-!
# oesmith/news: aggregation order, truncation and the revalidating fetcher

Shallow embedding of `main.go` and of the library routine it sorts with.

* A Go slice is a Lean list, indexed from 0. An index out of range is a run-time panic.
* A `*time.Time` is an `Option Time`, `nil` being `none`; a `time.Time` is the instant it
  denotes, which is all `Time.Before` looks at.
* A function that may panic returns an `Option`, and `none` is the panic. Where a loop
  carries fuel, the fuel handed in is never used up (`sortSort_total`, `pdqsort_fuel`,
  `siftDown_fuel`, `partitionLoop_fuel`, `partitionEqualLoop_fuel`).
* `sort.Sort` is the routine of package `sort` (pattern-defeating quicksort, files
  `sort.go` and `zsortinterface.go` of Go 1.19 and later), written out at
  `timeSortableArticles` with its calls of `Len`, `Less` and `Swap`. On a range of at
  most 12 entries it is the insertion sort.
* The network, the clock, the feed parser, the sanitizer and the time formatter are
  parameters (`Env`, `Tools`).
-/

namespace News

/-! ## Data model -/

/-- The instant denoted by a `time.Time`. -/
abbrev Time := Int

/-- `type Article struct` of main.go. `Timestamp` is a pointer, `none` is `nil`. -/
structure Article where
  Title : String
  Content : String
  Url : String
  Timestamp : Option Time
  FormattedTime : String
  FeedTitle : String
  FeedUrl : String
deriving DecidableEq

/-- `type timeSortableArticles []Article`. -/
abbrev timeSortableArticles := List Article

/-- `func (a timeSortableArticles) Len() int`. -/
def Len (a : timeSortableArticles) : Nat := a.length

/-- `func (a timeSortableArticles) Less(i, j int) bool`.
The two index expressions panic out of range.  When not both timestamps are nil, the
right operand of `||` is evaluated only if `a[j].Timestamp` is not nil, and it
dereferences `a[i].Timestamp`: a nil there is a nil-pointer panic. -/
def Less (a : timeSortableArticles) (i j : Nat) : Option Bool :=
  match a[i]?, a[j]? with
  | some x, some y =>
    if x.Timestamp = none ∧ y.Timestamp = none then some false
    else
      match y.Timestamp with
      | none => some true
      | some tj =>
        match x.Timestamp with
        | none => none
        | some ti => some (decide (tj < ti))
  | _, _ => none

/-- `func (a timeSortableArticles) Swap(i, j int)`: `a[i], a[j] = a[j], a[i]`. -/
def Swap (a : timeSortableArticles) (i j : Nat) : Option timeSortableArticles :=
  match a[i]?, a[j]? with
  | some x, some y => some ((a.set i y).set j x)
  | _, _ => none

/-! ## `sort.Sort` (package sort, pdqsort) at `timeSortableArticles` -/

/-- Inner loop of `insertionSort`: `for j := i; j > a && data.Less(j, j-1); j--`. -/
def insertionSortInner (a : Nat) : Nat → timeSortableArticles → Option timeSortableArticles
  | 0, xs => some xs
  | j + 1, xs =>
    if j + 1 > a then
      match Less xs (j + 1) j with
      | none => none
      | some true =>
        match Swap xs (j + 1) j with
        | none => none
        | some ys => insertionSortInner a j ys
      | some false => some xs
    else some xs

/-- Outer loop of `insertionSort`: `for i := a + 1; i < b; i++`, with `n` the number
of iterations still to run (`b - i`). -/
def insertionSortOuter (a : Nat) : Nat → Nat → timeSortableArticles → Option timeSortableArticles
  | 0, _, xs => some xs
  | n + 1, i, xs =>
    match insertionSortInner a i xs with
    | none => none
    | some ys => insertionSortOuter a n (i + 1) ys

/-- `func insertionSort(data Interface, a, b int)`. -/
def insertionSort (xs : timeSortableArticles) (a b : Nat) : Option timeSortableArticles :=
  insertionSortOuter a (b - (a + 1)) (a + 1) xs

/-- `func siftDown(data Interface, lo, hi, first int)`; the loop on `root`, which at
least doubles each round, so `hi` rounds are enough (`fuel`). -/
def siftDown (hi first : Nat) : Nat → Nat → timeSortableArticles → Option timeSortableArticles
  | 0, _, _ => none
  | fuel + 1, root, xs =>
    let child := 2 * root + 1
    if child ≥ hi then some xs
    else
      match (if child + 1 < hi then Less xs (first + child) (first + child + 1)
             else some false) with
      | none => none
      | some c =>
        let child := if c then child + 1 else child
        match Less xs (first + root) (first + child) with
        | none => none
        | some false => some xs
        | some true =>
          match Swap xs (first + root) (first + child) with
          | none => none
          | some ys => siftDown hi first fuel child ys

/-- First loop of `heapSort`: `for i := (hi - 1) / 2; i >= 0; i--`, here `i + 1`
iterations left. -/
def heapSortBuild (hi first : Nat) : Nat → timeSortableArticles → Option timeSortableArticles
  | 0, xs => some xs
  | i + 1, xs =>
    match siftDown hi first (hi + 1) i xs with
    | none => none
    | some ys => heapSortBuild hi first i ys

/-- Second loop of `heapSort`: `for i := hi - 1; i >= 0; i--`. -/
def heapSortPop (first : Nat) : Nat → timeSortableArticles → Option timeSortableArticles
  | 0, xs => some xs
  | i + 1, xs =>
    match Swap xs first (first + i) with
    | none => none
    | some ys =>
      match siftDown i first (i + 1) 0 ys with
      | none => none
      | some zs => heapSortPop first i zs

/-- `func heapSort(data Interface, a, b int)`. -/
def heapSort (xs : timeSortableArticles) (a b : Nat) : Option timeSortableArticles :=
  let first := a
  let hi := b - a
  match heapSortBuild hi first ((hi - 1) / 2 + 1) xs with
  | none => none
  | some ys => heapSortPop first hi ys

/-- `for i <= j && data.Less(i, a) { i++ }` of `partition`; `n` bounds the rounds
(`j + 1 - i`). Returns the final `i`. -/
def partitionUp (xs : timeSortableArticles) (a j : Nat) : Nat → Nat → Option Nat
  | 0, i => some i
  | n + 1, i =>
    if i ≤ j then
      match Less xs i a with
      | none => none
      | some true => partitionUp xs a j n (i + 1)
      | some false => some i
    else some i

/-- `for i <= j && !data.Less(j, a) { j-- }` of `partition`, counting `j` down. Every
call has `i >= a + 1 >= 1`, so at `j = 0` the test `i <= j` fails and the loop is left
with `j = 0`. Returns the final `j`. -/
def partitionDown (xs : timeSortableArticles) (a i : Nat) : Nat → Option Nat
  | 0 => some 0
  | j + 1 =>
    if i ≤ j + 1 then
      match Less xs (j + 1) a with
      | none => none
      | some false => partitionDown xs a i j
      | some true => some (j + 1)
    else some (j + 1)

/-- The `for { ... }` loop of `partition` after the first swap. Returns the slice
and the final `j`. -/
def partitionLoop (a : Nat) : Nat → timeSortableArticles → Nat → Nat →
    Option (timeSortableArticles × Nat)
  | 0, _, _, _ => none
  | fuel + 1, xs, i, j =>
    match partitionUp xs a j (j + 1 - i) i with
    | none => none
    | some i =>
      match partitionDown xs a i j with
      | none => none
      | some j =>
        if i > j then some (xs, j)
        else
          match Swap xs i j with
          | none => none
          | some ys => partitionLoop a fuel ys (i + 1) (j - 1)

/-- `func partition(data Interface, a, b, pivot int) (newpivot int, alreadyPartitioned bool)`. -/
def partition (xs : timeSortableArticles) (a b pivot : Nat) :
    Option (timeSortableArticles × Nat × Bool) :=
  match Swap xs a pivot with
  | none => none
  | some xs =>
    let i := a + 1
    let j := b - 1
    match partitionUp xs a j (j + 1 - i) i with
    | none => none
    | some i =>
      match partitionDown xs a i j with
      | none => none
      | some j =>
        if i > j then
          match Swap xs j a with
          | none => none
          | some ys => some (ys, j, true)
        else
          match Swap xs i j with
          | none => none
          | some ys =>
            match partitionLoop a (b - a) ys (i + 1) (j - 1) with
            | none => none
            | some (zs, j) =>
              match Swap zs j a with
              | none => none
              | some ws => some (ws, j, false)

/-- `for i <= j && !data.Less(a, i) { i++ }` of `partitionEqual`. -/
def partitionEqualUp (xs : timeSortableArticles) (a j : Nat) : Nat → Nat → Option Nat
  | 0, i => some i
  | n + 1, i =>
    if i ≤ j then
      match Less xs a i with
      | none => none
      | some false => partitionEqualUp xs a j n (i + 1)
      | some true => some i
    else some i

/-- `for i <= j && data.Less(a, j) { j-- }` of `partitionEqual`, counting `j` down as
in `partitionDown`. -/
def partitionEqualDown (xs : timeSortableArticles) (a i : Nat) : Nat → Option Nat
  | 0 => some 0
  | j + 1 =>
    if i ≤ j + 1 then
      match Less xs a (j + 1) with
      | none => none
      | some true => partitionEqualDown xs a i j
      | some false => some (j + 1)
    else some (j + 1)

/-- The `for { ... }` loop of `partitionEqual`. Returns the slice and the final `i`. -/
def partitionEqualLoop (a : Nat) : Nat → timeSortableArticles → Nat → Nat →
    Option (timeSortableArticles × Nat)
  | 0, _, _, _ => none
  | fuel + 1, xs, i, j =>
    match partitionEqualUp xs a j (j + 1 - i) i with
    | none => none
    | some i =>
      match partitionEqualDown xs a i j with
      | none => none
      | some j =>
        if i > j then some (xs, i)
        else
          match Swap xs i j with
          | none => none
          | some ys => partitionEqualLoop a fuel ys (i + 1) (j - 1)

/-- `func partitionEqual(data Interface, a, b, pivot int) (newpivot int)`. -/
def partitionEqual (xs : timeSortableArticles) (a b pivot : Nat) :
    Option (timeSortableArticles × Nat) :=
  match Swap xs a pivot with
  | none => none
  | some xs => partitionEqualLoop a (b - a + 1) xs (a + 1) (b - 1)

/-- `for i < b && !data.Less(i, i-1) { i++ }` of `partialInsertionSort`. -/
def partialScan (xs : timeSortableArticles) (b : Nat) : Nat → Nat → Option Nat
  | 0, i => some i
  | n + 1, i =>
    if i < b then
      match Less xs i (i - 1) with
      | none => none
      | some false => partialScan xs b n (i + 1)
      | some true => some i
    else some i

/-- `for j := i - 1; j >= 1; j-- { if !data.Less(j, j-1) { break }; data.Swap(j, j-1) }`. -/
def partialShiftLeft : Nat → timeSortableArticles → Option timeSortableArticles
  | 0, xs => some xs
  | j + 1, xs =>
    match Less xs (j + 1) j with
    | none => none
    | some false => some xs
    | some true =>
      match Swap xs (j + 1) j with
      | none => none
      | some ys => partialShiftLeft j ys

/-- `for j := i + 1; j < b; j++ { if !data.Less(j, j-1) { break }; data.Swap(j, j-1) }`,
with `n` rounds left (`b - j`). -/
def partialShiftRight : Nat → Nat → timeSortableArticles → Option timeSortableArticles
  | 0, _, xs => some xs
  | n + 1, j, xs =>
    match Less xs j (j - 1) with
    | none => none
    | some false => some xs
    | some true =>
      match Swap xs j (j - 1) with
      | none => none
      | some ys => partialShiftRight n (j + 1) ys

/-- The `for j := 0; j < maxSteps; j++` loop of `partialInsertionSort`, `steps`
rounds left. -/
def partialInsertionSortLoop (a b : Nat) : Nat → Nat → timeSortableArticles →
    Option (timeSortableArticles × Bool)
  | 0, _, xs => some (xs, false)
  | steps + 1, i, xs =>
    match partialScan xs b (b - i) i with
    | none => none
    | some i =>
      if i = b then some (xs, true)
      else if b - a < 50 then some (xs, false)
      else
        match Swap xs i (i - 1) with
        | none => none
        | some ys =>
          match (if i - a ≥ 2 then partialShiftLeft (i - 1) ys else some ys) with
          | none => none
          | some zs =>
            match (if b - i ≥ 2 then partialShiftRight (b - (i + 1)) (i + 1) zs
                   else some zs) with
            | none => none
            | some ws => partialInsertionSortLoop a b steps i ws

/-- `func partialInsertionSort(data Interface, a, b int) bool` (`maxSteps = 5`,
`shortestShifting = 50`). -/
def partialInsertionSort (xs : timeSortableArticles) (a b : Nat) :
    Option (timeSortableArticles × Bool) :=
  partialInsertionSortLoop a b 5 (a + 1) xs

/-- `bits.Len` on a 64-bit word: the number of bits needed to write `x`. -/
def bitsLen : Nat → Nat → Nat
  | 0, _ => 0
  | fuel + 1, x => if x = 0 then 0 else bitsLen fuel (x / 2) + 1

/-- `func (r *xorshift) Next() uint64` on a 64-bit state. Nothing proved below depends on
the shift amounts: the theorems use only that `Nat.land x m` is at most `m`. -/
def xorshiftNext (r : Nat) : Nat :=
  let r := Nat.xor r ((r <<< 13) % 2 ^ 64)
  let r := Nat.xor r (r >>> 7)
  Nat.xor r ((r <<< 17) % 2 ^ 64)

/-- `func nextPowerOfTwo(length int) uint`. -/
def nextPowerOfTwo (length : Nat) : Nat := (1 <<< bitsLen 64 length) % 2 ^ 64

/-- The `for i := 0; i < 3; i++` loop of `breakPatterns`, `n` rounds left. -/
def breakPatternsLoop (a length modulus idx : Nat) : Nat → Nat → Nat →
    timeSortableArticles → Option timeSortableArticles
  | 0, _, _, xs => some xs
  | n + 1, i, random, xs =>
    let random := xorshiftNext random
    let other := Nat.land random (modulus - 1)
    let other := if other ≥ length then other - length else other
    match Swap xs (idx - 1 + i) (a + other) with
    | none => none
    | some ys => breakPatternsLoop a length modulus idx n (i + 1) random ys

/-- `func breakPatterns(data Interface, a, b int)`. -/
def breakPatterns (xs : timeSortableArticles) (a b : Nat) : Option timeSortableArticles :=
  let length := b - a
  if length ≥ 8 then
    breakPatternsLoop a length (nextPowerOfTwo length) (a + (length / 4) * 2 - 1) 3 0 length xs
  else some xs

/-- `func order2(data Interface, a, b int, swaps *int) (int, int)`; the counter is
threaded through. -/
def order2 (xs : timeSortableArticles) (a b swaps : Nat) : Option (Nat × Nat × Nat) :=
  match Less xs b a with
  | none => none
  | some true => some (b, a, swaps + 1)
  | some false => some (a, b, swaps)

/-- `func median(data Interface, a, b, c int, swaps *int) int`. -/
def median (xs : timeSortableArticles) (a b c swaps : Nat) : Option (Nat × Nat) :=
  match order2 xs a b swaps with
  | none => none
  | some (a, b, swaps) =>
    match order2 xs b c swaps with
    | none => none
    | some (b, _, swaps) =>
      match order2 xs a b swaps with
      | none => none
      | some (_, b, swaps) => some (b, swaps)

/-- `func medianAdjacent(data Interface, a int, swaps *int) int`. -/
def medianAdjacent (xs : timeSortableArticles) (a swaps : Nat) : Option (Nat × Nat) :=
  median xs (a - 1) a (a + 1) swaps

/-- `type sortedHint int`. -/
inductive sortedHint where
  | unknownHint
  | increasingHint
  | decreasingHint
deriving DecidableEq

/-- `func choosePivot(data Interface, a, b int) (pivot int, hint sortedHint)`
(`shortestNinther = 50`, `maxSwaps = 4 * 3`). -/
def choosePivot (xs : timeSortableArticles) (a b : Nat) : Option (Nat × sortedHint) :=
  let l := b - a
  let i := a + l / 4 * 1
  let j := a + l / 4 * 2
  let k := a + l / 4 * 3
  let r : Option (Nat × Nat) :=
    if l ≥ 8 then
      if l ≥ 50 then
        match medianAdjacent xs i 0 with
        | none => none
        | some (i, swaps) =>
          match medianAdjacent xs j swaps with
          | none => none
          | some (j, swaps) =>
            match medianAdjacent xs k swaps with
            | none => none
            | some (k, swaps) => median xs i j k swaps
      else median xs i j k 0
    else some (j, 0)
  match r with
  | none => none
  | some (j, swaps) =>
    if swaps = 0 then some (j, sortedHint.increasingHint)
    else if swaps = 12 then some (j, sortedHint.decreasingHint)
    else some (j, sortedHint.unknownHint)

/-- The loop `for i < j` of `reverseRange`, at most `n` rounds. -/
def reverseRangeLoop : Nat → Nat → Nat → timeSortableArticles → Option timeSortableArticles
  | 0, _, _, xs => some xs
  | n + 1, i, j, xs =>
    if i < j then
      match Swap xs i j with
      | none => none
      | some ys => reverseRangeLoop n (i + 1) (j - 1) ys
    else some xs

/-- `func reverseRange(data Interface, a, b int)`. -/
def reverseRange (xs : timeSortableArticles) (a b : Nat) : Option timeSortableArticles :=
  reverseRangeLoop (b - a) a (b - 1) xs

/-- `func pdqsort(data Interface, a, b, limit int)`.  One unit of `fuel` is spent per
loop round and per recursive call; the range shrinks each time, so `b - a + 1` is
enough.  `wasBalanced` and `wasPartitioned` are the loop's local variables. -/
def pdqsort : Nat → timeSortableArticles → Nat → Nat → Nat → Bool → Bool →
    Option timeSortableArticles
  | 0, _, _, _, _, _, _ => none
  | fuel + 1, xs, a, b, limit, wasBalanced, wasPartitioned =>
    let length := b - a
    if length ≤ 12 then insertionSort xs a b
    else if limit = 0 then heapSort xs a b
    else
      match (if !wasBalanced then (breakPatterns xs a b).map (fun ys => (ys, limit - 1))
             else some (xs, limit)) with
      | none => none
      | some (xs, limit) =>
        match choosePivot xs a b with
        | none => none
        | some (pivot, hint) =>
          match (if hint = sortedHint.decreasingHint then
                   (reverseRange xs a b).map
                     (fun ys => (ys, (b - 1) - (pivot - a), sortedHint.increasingHint))
                 else some (xs, pivot, hint)) with
          | none => none
          | some (xs, pivot, hint) =>
            match (if wasBalanced && wasPartitioned && hint = sortedHint.increasingHint then
                     partialInsertionSort xs a b
                   else some (xs, false)) with
            | none => none
            | some (xs, true) => some xs
            | some (xs, false) =>
              match (if a > 0 then (Less xs (a - 1) pivot).map (fun c => !c)
                     else some false) with
              | none => none
              | some true =>
                match partitionEqual xs a b pivot with
                | none => none
                | some (ys, mid) => pdqsort fuel ys mid b limit wasBalanced wasPartitioned
              | some false =>
                match partition xs a b pivot with
                | none => none
                | some (ys, mid, alreadyPartitioned) =>
                  let leftLen := mid - a
                  let rightLen := b - mid
                  let balanceThreshold := length / 8
                  if leftLen < rightLen then
                    match pdqsort fuel ys a mid limit true true with
                    | none => none
                    | some zs =>
                      pdqsort fuel zs (mid + 1) b limit
                        (decide (leftLen ≥ balanceThreshold)) alreadyPartitioned
                  else
                    match pdqsort fuel ys (mid + 1) b limit true true with
                    | none => none
                    | some zs =>
                      pdqsort fuel zs a mid limit
                        (decide (rightLen ≥ balanceThreshold)) alreadyPartitioned

/-- `func Sort(data Interface)` of package sort (the word `Sort` is reserved in Lean). -/
def sortSort (xs : timeSortableArticles) : Option timeSortableArticles :=
  let n := Len xs
  if n ≤ 1 then some xs
  else pdqsort (n + 1) xs 0 n (bitsLen 64 n) true true

/-! ## The revalidating fetcher -/

/-- `type CacheEntry struct`. -/
structure CacheEntry where
  Body : String
  LastModified : String
  ETag : String
  Timestamp : Time
deriving DecidableEq

/-- The zero `time.Time`, the origin of the time line. -/
def zeroTime : Time := 0

/-- `CacheEntry{}`, the zero value. -/
def CacheEntry.zero : CacheEntry := ⟨"", "", "", zeroTime⟩

/-- The field `cache map[string]CacheEntry` of `Fetcher`: a finite map read as its
lookup function (`none` where the key is absent). -/
abbrev Cache := String → Option CacheEntry

/-- `f.cache[url] = ce`. -/
def Cache.put (cache : Cache) (url : String) (ce : CacheEntry) : Cache :=
  fun u => if u = url then some ce else cache u

/-- An `*http.Request`: method, URL and the header fields in the order they were added. -/
structure Request where
  Method : String
  URL : String
  Header : List (String × String)
deriving DecidableEq

/-- `req.Header.Add(key, value)`. -/
def Request.headerAdd (req : Request) (key value : String) : Request :=
  { req with Header := req.Header ++ [(key, value)] }

/-- An `*http.Response` as far as `get` looks at it: `Header` maps a field name to the
values stored for it, `Body` is what `io.ReadAll(res.Body)` yields (the text read in
full, or the read error). -/
structure Response where
  Status : String
  StatusCode : Int
  Header : String → List String
  Body : Except String String

/-- `res.Header.Get(key)`: the first value stored for the key, `""` if there is none. -/
def Response.headerGet (res : Response) (key : String) : String :=
  match res.Header key with
  | [] => ""
  | v :: _ => v

/-- The `error` values `get` returns, by origin. -/
inductive FetchError where
  | newRequest (cause : String)
  | transport (cause : String)
  | status (status : String)
  | read (cause : String)
deriving DecidableEq

/-- What one call of `get` meets outside the program: whether `http.NewRequest` rejects
the URL, what `f.client.Do` answers to a request (a transport error, which includes a
timeout, or a response), and what `time.Now()` reads. -/
structure Env where
  NewRequest : String → Option String
  Do : Request → Except String Response
  Now : Time

/-- Outcome of one call of `get`: the returned `(string, error)` pair, the cache
afterwards, and the request that was handed to `f.client.Do`, if one was. -/
structure GetOutcome where
  result : Except FetchError String
  cache : Cache
  sent : Option Request

/-- `http.StatusNotModified`. -/
def StatusNotModified : Int := 304

/-- `http.StatusOK`. -/
def StatusOK : Int := 200

/-- `func (f *Fetcher) get(url string) (string, error)`; the `*verbose` log line has no
effect on the result. -/
def Fetcher.get (env : Env) (cache : Cache) (url : String) : GetOutcome :=
  match env.NewRequest url with
  | some e => ⟨.error (.newRequest e), cache, none⟩
  | none =>
    let req : Request := ⟨"GET", url, []⟩
    let (ce, req) :=
      match cache url with
      | some ce =>
        let req := if ce.ETag ≠ "" then req.headerAdd "If-None-Match" ce.ETag else req
        let req :=
          if ce.LastModified ≠ "" then req.headerAdd "If-Modified-Since" ce.LastModified
          else req
        (ce, req)
      | none => (CacheEntry.zero, req)
    match env.Do req with
    | .error e => ⟨.error (.transport e), cache, some req⟩
    | .ok res =>
      if res.StatusCode = StatusNotModified then ⟨.ok ce.Body, cache, some req⟩
      else if res.StatusCode ≠ StatusOK then ⟨.error (.status res.Status), cache, some req⟩
      else
        match res.Body with
        | .error e => ⟨.error (.read e), cache, some req⟩
        | .ok s =>
          let ce := { ce with
            Body := s
            ETag := res.headerGet "ETag"
            LastModified := res.headerGet "Last-Modified"
            Timestamp := env.Now }
          ⟨.ok s, cache.put url ce, some req⟩

/-! ## Aggregation of a page -/

/-- A `*gofeed.Item`, the fields `main` reads. -/
structure Item where
  Title : String
  Content : String
  Description : String
  Link : String
  PublishedParsed : Option Time
  UpdatedParsed : Option Time
deriving DecidableEq

/-- A `*gofeed.Feed`, the fields `main` reads. -/
structure Feed where
  Title : String
  Link : String
  Items : List Item
deriving DecidableEq

/-- The collaborators of `main`: `parser.ParseString`, `sanitizer.Sanitize`, and
`Time.Format("Monday 2 Jan 15:04")`. -/
structure Tools where
  ParseString : String → Except String Feed
  Sanitize : String → String
  Format : Time → String

/-- Body of `for _, i := range feed.Items`: the article built from one item. -/
def itemArticle (t : Tools) (feed : Feed) (i : Item) : Article :=
  let timestamp :=
    match i.PublishedParsed with
    | none => i.UpdatedParsed
    | some p => some p
  let formattedTime :=
    match timestamp with
    | some ts => t.Format ts
    | none => ""
  let content := t.Sanitize i.Content
  let content := if content = "" then t.Sanitize i.Description else content
  { Title := i.Title
    Content := content
    Url := i.Link
    Timestamp := timestamp
    FormattedTime := formattedTime
    FeedTitle := feed.Title
    FeedUrl := feed.Link }

/-- The loop `for _, i := range feed.Items { ...; articles = append(articles, ...) }`. -/
def appendItems (t : Tools) (feed : Feed) : List Item → timeSortableArticles →
    timeSortableArticles
  | [], articles => articles
  | i :: rest, articles => appendItems t feed rest (articles ++ [itemArticle t feed i])

/-- State of the loop over a page's URLs: the fetcher's cache, the number of calls of
`get` made so far, and `articles`. -/
structure LoopState where
  cache : Cache
  calls : Nat
  articles : timeSortableArticles

/-- The loop `for _, url := range page.Urls` of `main`; `envs k` is what the `k`-th call
of `get` meets. Both error branches log and `continue`. -/
def pageLoop (t : Tools) (envs : Nat → Env) : List String → LoopState → LoopState
  | [], st => st
  | url :: rest, st =>
    let out := Fetcher.get (envs st.calls) st.cache url
    match out.result with
    | .error _ => pageLoop t envs rest ⟨out.cache, st.calls + 1, st.articles⟩
    | .ok data =>
      match t.ParseString data with
      | .error _ => pageLoop t envs rest ⟨out.cache, st.calls + 1, st.articles⟩
      | .ok feed =>
        pageLoop t envs rest
          ⟨out.cache, st.calls + 1, appendItems t feed feed.Items st.articles⟩

/-- Lines 111 to 113 of `main`: `if len(articles) > *maxArticles { articles =
articles[:*maxArticles] }`; slicing with a negative bound panics. -/
def truncate (articles : timeSortableArticles) (maxArticles : Int) :
    Option timeSortableArticles :=
  if (articles.length : Int) > maxArticles then
    if maxArticles < 0 then none else some (articles.take maxArticles.toNat)
  else some articles

/-- Lines 109 to 113 of `main`: `sort.Sort(articles)`, then the truncation; the value is
the `Articles` of the rendered `Page`. -/
def pageArticles (articles : timeSortableArticles) (maxArticles : Int) :
    Option timeSortableArticles :=
  match sortSort articles with
  | none => none
  | some sorted => truncate sorted maxArticles

/-! ## Predicates of the proofs -/

/-- Sort key of an article: its timestamp, with "no timestamp" below every instant. -/
def key (x : Article) : WithBot Int := x.Timestamp

/-- Sort key of the article at position `k` (bottom past the end). -/
def keyAt (xs : timeSortableArticles) (k : Nat) : WithBot Int :=
  match xs[k]? with
  | some x => key x
  | none => ⊥

/-- The slice `ys` is `xs` with the positions of `[a, b)` rearranged: same length, and
a bijection of positions that fixes everything outside `[a, b)`. -/
def RangePerm (a b : Nat) (xs ys : timeSortableArticles) : Prop :=
  ys.length = xs.length ∧
    ∃ σ : Equiv.Perm Nat, (∀ k, ¬ (a ≤ k ∧ k < b) → σ k = k) ∧ ∀ k, ys[k]? = xs[σ k]?

/-- The keys of `xs` on `[a, b)` never increase from left to right: later first, no
timestamp last. -/
def SortedOn (a b : Nat) (xs : timeSortableArticles) : Prop :=
  ∀ p q, a ≤ p → p < q → q < b → keyAt xs q ≤ keyAt xs p

/-- Heap order on the offsets `[lo, hi)` of the block starting at `first`: no child
has a key above its parent (the root holds the entry that sorts last). -/
def HeapFrom (first hi lo : Nat) (xs : timeSortableArticles) : Prop :=
  ∀ r c, lo ≤ r → (c = 2 * r + 1 ∨ c = 2 * r + 2) → c < hi →
    keyAt xs (first + r) ≤ keyAt xs (first + c)

/-- The entry just before `[a, b)`, when there is one, has a key no smaller than any key
inside: what `pdqsort` knows about a range to the right of an earlier pivot. -/
def Bounded (a b : Nat) (xs : timeSortableArticles) : Prop :=
  0 < a → ∀ k, a ≤ k → k < b → keyAt xs k ≤ keyAt xs (a - 1)

/-- The comparison cannot panic on `xs`: every article has a timestamp, or none has. -/
def Safe (xs : timeSortableArticles) : Prop :=
  (∀ x ∈ xs, x.Timestamp ≠ none) ∨ (∀ x ∈ xs, x.Timestamp = none)

/-- A slice of length `n` on which the comparison cannot panic. -/
def Good (n : Nat) (xs : timeSortableArticles) : Prop := xs.length = n ∧ Safe xs

/-! ## The request and the fallback body of `get` -/

/-- The header fields `get` adds for a cached entry (none when the URL is not cached). -/
def condHeader (cache : Cache) (url : String) : List (String × String) :=
  match cache url with
  | none => []
  | some e =>
    (if e.ETag ≠ "" then [("If-None-Match", e.ETag)] else []) ++
      (if e.LastModified ≠ "" then [("If-Modified-Since", e.LastModified)] else [])

/-- The cached body `get` falls back on (`""` from `CacheEntry{}` when the URL is not
cached). -/
def cachedBody (cache : Cache) (url : String) : String :=
  match cache url with
  | none => ""
  | some e => e.Body

/-! ## The combined list as the specification words it -/

/-- The feed a URL yields in a run, when its fetch and its parse both succeed. -/
def urlFeed (t : Tools) (env : Env) (cache : Cache) (url : String) : Option Feed :=
  match (Fetcher.get env cache url).result with
  | .error _ => none
  | .ok data =>
    match t.ParseString data with
    | .error _ => none
    | .ok feed => some feed

/-- The articles derived from a URL: one per item of its feed, in feed order, and none
when the fetch or the parse failed. -/
def feedArticles (t : Tools) : Option Feed → List Article
  | none => []
  | some feed => feed.Items.map (itemArticle t feed)

/-- The combined list as the specification words it: the concatenation, in URL order,
of the articles derived from each URL, every URL being fetched against the cache its
predecessors left. -/
def specCombined (t : Tools) (envs : Nat → Env) : List String → Cache → Nat → List Article
  | [], _, _ => []
  | url :: rest, cache, k =>
    feedArticles t (urlFeed t (envs k) cache url) ++
      specCombined t envs rest (Fetcher.get (envs k) cache url).cache (k + 1)

/-! ## Concrete data -/

/-- 2024-01-01T00:00:00Z, in seconds from the zero time. -/
def jan01 : Time := 63839664000

/-- 2024-01-02T00:00:00Z, in seconds from the zero time. -/
def jan02 : Time := 63839750400

/-- Feed A's item of the scenario, timestamped 2024-01-02. -/
def itemA : Article :=
  ⟨"A1", "", "https://a.example/1", some jan02, "Tuesday 2 Jan 00:00", "Feed A",
    "https://a.example/"⟩

/-- Feed B's item timestamped 2024-01-01. -/
def itemB1 : Article :=
  ⟨"B1", "", "https://b.example/1", some jan01, "Monday 1 Jan 00:00", "Feed B",
    "https://b.example/"⟩

/-- Feed B's item with no timestamp. -/
def itemB2 : Article :=
  ⟨"B2", "", "https://b.example/2", none, "", "Feed B", "https://b.example/"⟩

/-- The combined list of the scenario, in append order. -/
def scenario : timeSortableArticles := [itemA, itemB1, itemB2]

/-- Thirteen articles in append order: twelve share one timestamp, the last is later. -/
def tiedInput : timeSortableArticles :=
  [⟨"n0", "", "", some 1, "", "", ""⟩, ⟨"n1", "", "", some 1, "", "", ""⟩,
    ⟨"n2", "", "", some 1, "", "", ""⟩, ⟨"n3", "", "", some 1, "", "", ""⟩,
    ⟨"n4", "", "", some 1, "", "", ""⟩, ⟨"n5", "", "", some 1, "", "", ""⟩,
    ⟨"n6", "", "", some 1, "", "", ""⟩, ⟨"n7", "", "", some 1, "", "", ""⟩,
    ⟨"n8", "", "", some 1, "", "", ""⟩, ⟨"n9", "", "", some 1, "", "", ""⟩,
    ⟨"n10", "", "", some 1, "", "", ""⟩, ⟨"n11", "", "", some 1, "", "", ""⟩,
    ⟨"n12", "", "", some 2, "", "", ""⟩]

/-- What `sort.Sort` makes of `tiedInput`. -/
def tiedOutput : timeSortableArticles :=
  [⟨"n12", "", "", some 2, "", "", ""⟩, ⟨"n6", "", "", some 1, "", "", ""⟩,
    ⟨"n2", "", "", some 1, "", "", ""⟩, ⟨"n3", "", "", some 1, "", "", ""⟩,
    ⟨"n4", "", "", some 1, "", "", ""⟩, ⟨"n5", "", "", some 1, "", "", ""⟩,
    ⟨"n0", "", "", some 1, "", "", ""⟩, ⟨"n7", "", "", some 1, "", "", ""⟩,
    ⟨"n8", "", "", some 1, "", "", ""⟩, ⟨"n9", "", "", some 1, "", "", ""⟩,
    ⟨"n10", "", "", some 1, "", "", ""⟩, ⟨"n11", "", "", some 1, "", "", ""⟩,
    ⟨"n1", "", "", some 1, "", "", ""⟩]

/-- Three articles, the first and the last with the same timestamp. -/
def smallTied : timeSortableArticles :=
  [⟨"p", "", "", some 1, "", "", ""⟩, ⟨"q", "", "", some 2, "", "", ""⟩,
    ⟨"r", "", "", some 1, "", "", ""⟩]

/-- What `sort.Sort` makes of `smallTied`. -/
def smallTiedSorted : timeSortableArticles :=
  [⟨"q", "", "", some 2, "", "", ""⟩, ⟨"p", "", "", some 1, "", "", ""⟩,
    ⟨"r", "", "", some 1, "", "", ""⟩]

/-- The two timestamped items of the scenario. -/
def timedScenario : timeSortableArticles := [itemB1, itemA]

/-- A cached feed URL. -/
def feedUrl : String := "https://a.example/feed"

/-- The entry cached for `feedUrl`. -/
def cachedEntry : CacheEntry := ⟨"<rss>old</rss>", "Mon, 01 Jan 2024 00:00:00 GMT", "v1", jan01⟩

/-- A cache holding `cachedEntry` under `feedUrl` and nothing else. -/
def oneEntryCache : Cache := fun u => if u = feedUrl then some cachedEntry else none

/-- The request `get` sends for `feedUrl` against `oneEntryCache`. -/
def revalidation : Request :=
  ⟨"GET", feedUrl, [("If-None-Match", "v1"),
    ("If-Modified-Since", "Mon, 01 Jan 2024 00:00:00 GMT")]⟩

/-- The response of a server that has nothing new. -/
def notModified : Response := ⟨"304 Not Modified", 304, fun _ => [], .ok ""⟩

/-- The response of a server with a new body and a new ETag, no Last-Modified. -/
def freshBody : Response :=
  ⟨"200 OK", 200, fun k => if k = "ETag" then ["v2"] else [], .ok "<rss>new</rss>"⟩

/-- The response of a failing server. -/
def serverError : Response := ⟨"500 Internal Server Error", 500, fun _ => [], .ok ""⟩

/-- A run in which every request is answered by `res`, at time `jan02`. -/
def answering (res : Response) : Env := ⟨fun _ => none, fun _ => .ok res, jan02⟩

/-- A parser that reads one document, feed B with its dated item, and rejects the rest;
the sanitizer keeps the text and every time is formatted alike. -/
def oneFeedTools : Tools :=
  ⟨fun data =>
      if data = "<rss>B</rss>" then
        .ok ⟨"Feed B", "https://b.example/", [⟨"B1", "", "", "https://b.example/1", some jan01,
          none⟩]⟩
      else .error "not a feed",
    fun s => s, fun _ => "Monday 1 Jan 00:00"⟩

/-- A run whose first request times out and whose later requests are answered with
feed B's document. -/
def firstFails : Nat → Env := fun k =>
  if k = 0 then ⟨fun _ => none, fun _ => .error "timeout", jan02⟩
  else ⟨fun _ => none, fun _ => .ok ⟨"200 OK", 200, fun _ => [], .ok "<rss>B</rss>"⟩, jan02⟩

/-! ## Theorems -/

/-! ### Keys, comparisons and rearrangements -/

theorem Less_eq_some {xs : timeSortableArticles} {i j : Nat} {c : Bool}
    (h : Less xs i j = some c) :
    i < xs.length ∧ j < xs.length ∧ (c = true ↔ keyAt xs j < keyAt xs i) := by
  unfold Less at h
  cases hi : xs[i]? with
  | none => simp [hi] at h
  | some x =>
    cases hj : xs[j]? with
    | none => simp [hi, hj] at h
    | some y =>
      have hil : i < xs.length := (List.getElem?_eq_some_iff.mp hi).1
      have hjl : j < xs.length := (List.getElem?_eq_some_iff.mp hj).1
      refine ⟨hil, hjl, ?_⟩
      simp only [hi, hj] at h
      simp only [keyAt, hi, hj, key]
      cases hx : x.Timestamp with
      | none =>
        cases hy : y.Timestamp with
        | none =>
          simp [hx, hy] at h
          subst h
          simp
        | some tj => simp [hx, hy] at h
      | some ti =>
        cases hy : y.Timestamp with
        | none =>
          simp [hx, hy] at h
          subst h
          simp only [true_iff]
          exact WithBot.bot_lt_coe ti
        | some tj =>
          simp [hx, hy] at h
          subst h
          simp only [decide_eq_true_eq]
          exact (WithBot.coe_lt_coe).symm

theorem Less_true {xs : timeSortableArticles} {i j : Nat}
    (h : Less xs i j = some true) : keyAt xs j < keyAt xs i :=
  (Less_eq_some h).2.2.mp rfl

theorem Less_false {xs : timeSortableArticles} {i j : Nat}
    (h : Less xs i j = some false) : keyAt xs i ≤ keyAt xs j := by
  have := (Less_eq_some h).2.2
  exact not_lt.mp (fun hlt => by simpa using this.mpr hlt)

theorem Swap_eq_some {xs ys : timeSortableArticles} {i j : Nat}
    (h : Swap xs i j = some ys) :
    i < xs.length ∧ j < xs.length ∧ ys.length = xs.length ∧
      ∀ k, ys[k]? = xs[Equiv.swap i j k]? := by
  unfold Swap at h
  cases hi : xs[i]? with
  | none => simp [hi] at h
  | some x =>
    cases hj : xs[j]? with
    | none => simp [hi, hj] at h
    | some y =>
      have hil : i < xs.length := (List.getElem?_eq_some_iff.mp hi).1
      have hjl : j < xs.length := (List.getElem?_eq_some_iff.mp hj).1
      simp only [hi, hj, Option.some.injEq] at h
      subst h
      refine ⟨hil, hjl, by simp, ?_⟩
      intro k
      rw [Equiv.swap_apply_def]
      simp only [List.getElem?_set, List.length_set]
      by_cases hkj : j = k
      · subst hkj
        by_cases hki : j = i
        · subst hki
          simp [hjl, hi]
        · simp [hjl, hki, hi]
      · by_cases hki : i = k
        · subst hki
          have : ¬ i = j := fun e => hkj e.symm
          simp [hkj, hil, hj, this]
        · have h1 : ¬ k = i := fun e => hki e.symm
          have h2 : ¬ k = j := fun e => hkj e.symm
          simp [hkj, hki, h1, h2]

theorem RangePerm.refl (a b : Nat) (xs : timeSortableArticles) : RangePerm a b xs xs :=
  ⟨rfl, Equiv.refl _, fun _ _ => rfl, fun _ => rfl⟩

theorem RangePerm.trans {a b : Nat} {xs ys zs : timeSortableArticles}
    (h₁ : RangePerm a b xs ys) (h₂ : RangePerm a b ys zs) : RangePerm a b xs zs := by
  obtain ⟨l₁, σ₁, f₁, g₁⟩ := h₁
  obtain ⟨l₂, σ₂, f₂, g₂⟩ := h₂
  refine ⟨l₂.trans l₁, σ₂.trans σ₁, ?_, ?_⟩
  · intro k hk
    have e2 : σ₂ k = k := f₂ k hk
    simp [Equiv.trans_apply, e2, f₁ k hk]
  · intro k
    simp [Equiv.trans_apply, g₂ k, g₁ (σ₂ k)]

theorem RangePerm.mono {a b a' b' : Nat} {xs ys : timeSortableArticles}
    (h : RangePerm a b xs ys) (ha : a' ≤ a) (hb : b ≤ b') : RangePerm a' b' xs ys := by
  obtain ⟨l, σ, f, g⟩ := h
  exact ⟨l, σ, fun k hk => f k (fun hk' => hk ⟨ha.trans hk'.1, hk'.2.trans_le hb⟩), g⟩

theorem RangePerm.of_Swap {a b i j : Nat} {xs ys : timeSortableArticles}
    (h : Swap xs i j = some ys) (hi : a ≤ i ∧ i < b) (hj : a ≤ j ∧ j < b) :
    RangePerm a b xs ys := by
  obtain ⟨_, _, hl, hg⟩ := Swap_eq_some h
  refine ⟨hl, Equiv.swap i j, ?_, hg⟩
  intro k hk
  apply Equiv.swap_apply_of_ne_of_ne
  · rintro rfl; exact hk hi
  · rintro rfl; exact hk hj

/-- The bijection of a `RangePerm` maps `[a, b)` into itself. -/
theorem perm_mem_range {a b : Nat} {σ : Equiv.Perm Nat}
    (f : ∀ k, ¬ (a ≤ k ∧ k < b) → σ k = k) {k : Nat} (hk : a ≤ k ∧ k < b) :
    a ≤ σ k ∧ σ k < b := by
  by_contra hc
  have h1 : σ (σ k) = σ k := f _ hc
  have h2 : σ k = k := σ.injective h1
  rw [h2] at hc
  exact hc hk

theorem RangePerm.outside {a b : Nat} {xs ys : timeSortableArticles}
    (h : RangePerm a b xs ys) {k : Nat} (hk : ¬ (a ≤ k ∧ k < b)) : ys[k]? = xs[k]? := by
  obtain ⟨_, σ, f, g⟩ := h
  rw [g k, f k hk]

theorem RangePerm.keyAt_outside {a b : Nat} {xs ys : timeSortableArticles}
    (h : RangePerm a b xs ys) {k : Nat} (hk : ¬ (a ≤ k ∧ k < b)) :
    keyAt ys k = keyAt xs k := by
  simp only [keyAt, h.outside hk]

/-- Every position of `[a, b)` in `ys` holds the key of some position of `[a, b)` in `xs`. -/
theorem RangePerm.keyAt_inside {a b : Nat} {xs ys : timeSortableArticles}
    (h : RangePerm a b xs ys) {k : Nat} (hk : a ≤ k ∧ k < b) :
    ∃ k', (a ≤ k' ∧ k' < b) ∧ keyAt ys k = keyAt xs k' := by
  obtain ⟨_, σ, f, g⟩ := h
  exact ⟨σ k, perm_mem_range f hk, by simp only [keyAt, g k]⟩

theorem RangePerm.length_eq {a b : Nat} {xs ys : timeSortableArticles}
    (h : RangePerm a b xs ys) : ys.length = xs.length := h.1

theorem Swap_keyAt {xs ys : timeSortableArticles} {i j : Nat}
    (h : Swap xs i j = some ys) (k : Nat) :
    keyAt ys k = if k = i then keyAt xs j else if k = j then keyAt xs i else keyAt xs k := by
  have hg := (Swap_eq_some h).2.2.2 k
  rw [Equiv.swap_apply_def] at hg
  simp only [keyAt, hg]
  split_ifs <;> rfl

/-- A rearrangement of positions is a permutation of the list. -/
theorem RangePerm.perm {a b : Nat} {xs ys : timeSortableArticles}
    (h : RangePerm a b xs ys) : ys.Perm xs := by
  obtain ⟨hl, σ, _, g⟩ := h
  have hlt : ∀ k, k < xs.length ↔ σ k < xs.length := by
    intro k
    have := g k
    constructor
    · intro hk
      by_contra hc
      rw [List.getElem?_eq_none (not_lt.mp hc)] at this
      rw [List.getElem?_eq_none_iff] at this
      omega
    · intro hk
      by_contra hc
      have hk' : ys.length ≤ k := by omega
      rw [List.getElem?_eq_none hk'] at this
      have := (List.getElem?_eq_none_iff.mp this.symm)
      omega
  let τ : Equiv.Perm (Fin xs.length) :=
    (Fin.equivSubtype.trans (σ.subtypePerm (fun k => hlt k))).trans Fin.equivSubtype.symm
  have hys : ys = List.ofFn (fun k : Fin xs.length => xs[(τ k).1]) := by
    apply List.ext_getElem?
    intro k
    by_cases hk : k < xs.length
    · rw [List.getElem?_ofFn, List.ofFnNthVal]
      simp only [hk, dite_true]
      rw [g k]
      rw [List.getElem?_eq_getElem ((hlt k).mp hk)]
      rfl
    · rw [List.getElem?_ofFn, List.ofFnNthVal]
      simp only [hk, dite_false]
      exact List.getElem?_eq_none (by omega)
  have hxs : xs = List.ofFn (fun k : Fin xs.length => xs[k.1]) := by
    simp
  rw [hys]
  conv_rhs => rw [hxs]
  exact Equiv.Perm.ofFn_comp_perm τ (fun k : Fin xs.length => xs[k.1])

/-! ### Insertion sort -/

theorem insertionSortInner_spec (a i : Nat) :
    ∀ (j : Nat) (xs ys : timeSortableArticles), insertionSortInner a j xs = some ys →
      j ≤ i →
      (∀ p q, a ≤ p → p < q → q ≤ i → p ≠ j → q ≠ j → keyAt xs q ≤ keyAt xs p) →
      (∀ q, j < q → q ≤ i → keyAt xs q ≤ keyAt xs j) →
      RangePerm a (i + 1) xs ys ∧ SortedOn a (i + 1) ys := by
  intro j
  induction j with
  | zero =>
    intro xs ys h _ h1 h2
    simp only [insertionSortInner, Option.some.injEq] at h
    subst h
    refine ⟨RangePerm.refl _ _ _, ?_⟩
    intro p q hap hpq hq
    by_cases hp0 : p = 0
    · subst hp0
      exact h2 q hpq (by omega)
    · exact h1 p q hap hpq (by omega) hp0 (by omega)
  | succ j ih =>
    intro xs ys h hji h1 h2
    rw [insertionSortInner] at h
    by_cases hja : j + 1 > a
    · simp only [hja, if_true] at h
      cases hl : Less xs (j + 1) j with
      | none => simp [hl] at h
      | some c =>
        cases c with
        | false =>
          simp only [hl, Option.some.injEq] at h
          subst h
          have hle := Less_false hl
          refine ⟨RangePerm.refl _ _ _, ?_⟩
          intro p q hap hpq hq
          by_cases hpj : p = j + 1
          · subst hpj
            exact h2 q hpq (by omega)
          · by_cases hqj : q = j + 1
            · subst hqj
              by_cases hpj' : p = j
              · subst hpj'
                exact hle
              · exact hle.trans (h1 p j hap (by omega) (by omega) hpj (by omega))
            · exact h1 p q hap hpq (by omega) hpj hqj
        | true =>
          simp only [hl] at h
          cases hs : Swap xs (j + 1) j with
          | none => simp [hs] at h
          | some zs =>
            simp only [hs] at h
            have hlt := Less_true hl
            have hk := Swap_keyAt hs
            have hrp : RangePerm a (i + 1) xs zs :=
              RangePerm.of_Swap hs ⟨by omega, by omega⟩ ⟨by omega, by omega⟩
            obtain ⟨r1, r2⟩ := ih zs ys h (by omega)
              (by
                intro p q hap hpq hq hpj hqj
                rw [hk p, hk q]
                by_cases hp : p = j + 1
                · subst hp
                  have hq1 : q ≠ j + 1 := by omega
                  simp only [if_true, hq1, hqj, if_false]
                  exact h1 j q (by omega) (by omega) hq (by omega) hq1
                · by_cases hq' : q = j + 1
                  · subst hq'
                    simp only [if_true, hp, hpj, if_false]
                    exact h1 p j hap (by omega) (by omega) hp (by omega)
                  · simp only [hp, hpj, hq', hqj, if_false]
                    exact h1 p q hap hpq hq hp hq')
              (by
                intro q hjq hq
                rw [hk q, hk j]
                have hj1 : j ≠ j + 1 := by omega
                simp only [hj1, if_false, if_true]
                by_cases hq' : q = j + 1
                · subst hq'
                  simp only [if_true]
                  exact hlt.le
                · have : q ≠ j := by omega
                  simp only [hq', this, if_false]
                  exact h2 q (by omega) hq)
            exact ⟨hrp.trans r1, r2⟩
    · simp only [hja, if_false, Option.some.injEq] at h
      subst h
      refine ⟨RangePerm.refl _ _ _, ?_⟩
      intro p q hap hpq hq
      by_cases hpj : p = j + 1
      · subst hpj
        exact h2 q hpq (by omega)
      · exact h1 p q hap hpq (by omega) hpj (by omega)

theorem insertionSortOuter_spec (a : Nat) :
    ∀ (n i : Nat) (xs ys : timeSortableArticles), insertionSortOuter a n i xs = some ys →
      a < i → SortedOn a i xs →
      RangePerm a (i + n) xs ys ∧ SortedOn a (i + n) ys := by
  intro n
  induction n with
  | zero =>
    intro i xs ys h _ hs
    simp only [insertionSortOuter, Option.some.injEq] at h
    subst h
    exact ⟨RangePerm.refl _ _ _, hs⟩
  | succ n ih =>
    intro i xs ys h hai hs
    rw [insertionSortOuter] at h
    cases hin : insertionSortInner a i xs with
    | none => simp [hin] at h
    | some zs =>
      simp only [hin] at h
      obtain ⟨r1, s1⟩ := insertionSortInner_spec a i i xs zs hin le_rfl
        (fun p q hap hpq hq _ hqi => hs p q hap hpq (by omega))
        (fun q hjq hq => by omega)
      obtain ⟨r2, s2⟩ := ih (i + 1) zs ys h (by omega) s1
      have e : i + 1 + n = i + (n + 1) := by omega
      rw [e] at r2 s2
      exact ⟨(r1.mono le_rfl (by omega)).trans r2, s2⟩

theorem insertionSort_spec {xs ys : timeSortableArticles} {a b : Nat}
    (h : insertionSort xs a b = some ys) :
    RangePerm a b xs ys ∧ SortedOn a b ys := by
  unfold insertionSort at h
  by_cases hab : a + 1 ≤ b
  · obtain ⟨r, s⟩ := insertionSortOuter_spec a _ _ xs ys h (by omega)
      (fun p q hap hpq hq => by omega)
    have e : a + 1 + (b - (a + 1)) = b := by omega
    rw [e] at r s
    exact ⟨r, s⟩
  · have e : b - (a + 1) = 0 := by omega
    rw [e] at h
    simp only [insertionSortOuter, Option.some.injEq] at h
    subst h
    exact ⟨RangePerm.refl _ _ _, fun p q hap hpq hq => by omega⟩

/-! ### Heap sort -/

theorem siftDown_spec (hi first lo : Nat) :
    ∀ (fuel root : Nat) (xs ys : timeSortableArticles),
      siftDown hi first fuel root xs = some ys → lo ≤ root →
      (∀ r c, lo ≤ r → r ≠ root → (c = 2 * r + 1 ∨ c = 2 * r + 2) → c < hi →
        keyAt xs (first + r) ≤ keyAt xs (first + c)) →
      (∀ r c, lo ≤ r → (root = 2 * r + 1 ∨ root = 2 * r + 2) →
        (c = 2 * root + 1 ∨ c = 2 * root + 2) → c < hi →
        keyAt xs (first + r) ≤ keyAt xs (first + c)) →
      RangePerm (first + lo) (first + hi) xs ys ∧ HeapFrom first hi lo ys := by
  intro fuel
  induction fuel with
  | zero => intro root xs ys h; simp [siftDown] at h
  | succ fuel ih =>
    intro root xs ys h hlo hA hB
    rw [siftDown] at h
    simp only [] at h
    by_cases hch : 2 * root + 1 ≥ hi
    · simp only [hch, if_true, Option.some.injEq] at h
      subst h
      refine ⟨RangePerm.refl _ _ _, ?_⟩
      intro r c hr hc hchi
      by_cases hrr : r = root
      · subst hrr; omega
      · exact hA r c hr hrr hc hchi
    · simp only [hch, if_false] at h
      cases hc1 : (if 2 * root + 1 + 1 < hi then
          Less xs (first + (2 * root + 1)) (first + (2 * root + 1) + 1) else some false) with
      | none => simp [hc1] at h
      | some c1 =>
        simp only [hc1] at h
        -- the chosen child
        obtain ⟨cs, hcs, hcs1, hcs2, hcs3⟩ :
            ∃ cs, cs = (if c1 = true then 2 * root + 1 + 1 else 2 * root + 1) ∧
              (cs = 2 * root + 1 ∨ cs = 2 * root + 2) ∧ cs < hi ∧
              ∀ c, (c = 2 * root + 1 ∨ c = 2 * root + 2) → c < hi →
                keyAt xs (first + cs) ≤ keyAt xs (first + c) := by
          refine ⟨_, rfl, ?_⟩
          by_cases h2 : 2 * root + 1 + 1 < hi
          · simp only [h2, if_true] at hc1
            cases c1 with
            | true =>
              have := Less_true hc1
              simp only [if_true]
              refine ⟨by simp, h2, ?_⟩
              rintro c (rfl | rfl) _
              · exact this.le
              · exact le_rfl
            | false =>
              have := Less_false hc1
              simp only [Bool.false_eq_true, if_false]
              refine ⟨by simp, by omega, ?_⟩
              rintro c (rfl | rfl) _
              · exact le_rfl
              · exact this
          · simp only [h2, if_false, Option.some.injEq] at hc1
            subst hc1
            simp only [Bool.false_eq_true, if_false]
            refine ⟨by simp, by omega, ?_⟩
            rintro c (rfl | rfl) hc
            · exact le_rfl
            · omega
        rw [← hcs] at h
        cases hl : Less xs (first + root) (first + cs) with
        | none => simp [hl] at h
        | some c2 =>
          cases c2 with
          | false =>
            simp only [hl, Option.some.injEq] at h
            subst h
            have hle := Less_false hl
            refine ⟨RangePerm.refl _ _ _, ?_⟩
            intro r c hr hc hchi
            by_cases hrr : r = root
            · subst hrr
              exact hle.trans (hcs3 c hc hchi)
            · exact hA r c hr hrr hc hchi
          | true =>
            simp only [hl] at h
            have hlt := Less_true hl
            cases hs : Swap xs (first + root) (first + cs) with
            | none => simp [hs] at h
            | some zs =>
              simp only [hs] at h
              have hk := Swap_keyAt hs
              have hrp : RangePerm (first + lo) (first + hi) xs zs :=
                RangePerm.of_Swap hs ⟨by omega, by omega⟩ ⟨by omega, by omega⟩
              have hkr : keyAt zs (first + root) = keyAt xs (first + cs) := by
                rw [hk]; simp
              have hkc : keyAt zs (first + cs) = keyAt xs (first + root) := by
                rw [hk]
                have : ¬ cs = root := by omega
                simp [this]
              have hko : ∀ o, o ≠ root → o ≠ cs → keyAt zs (first + o) = keyAt xs (first + o) := by
                intro o h1 h2
                rw [hk]
                simp [h1, h2]
              obtain ⟨r1, r2⟩ := ih cs zs ys h (by omega)
                (by
                  intro r c hr hrc hc hchi
                  by_cases hrr : r = root
                  · subst hrr
                    rw [hkr]
                    by_cases hcc : c = cs
                    · subst hcc
                      rw [hkc]
                      exact hlt.le
                    · rw [hko c (by omega) hcc]
                      exact hcs3 c hc hchi
                  · rw [hko r hrr hrc]
                    by_cases hcr : c = root
                    · subst hcr
                      rw [hkr]
                      exact hB r cs hr hc hcs1 hcs2
                    · have : c ≠ cs := by omega
                      rw [hko c hcr this]
                      exact hA r c hr hrr hc hchi)
                (by
                  intro r c hr hrc hc hchi
                  have hrr : r = root := by omega
                  subst hrr
                  rw [hkr, hko c (by omega) (by omega)]
                  exact hA cs c (by omega) (by omega) hc hchi)
              exact ⟨hrp.trans r1, r2⟩

theorem heapSortBuild_spec (hi first : Nat) :
    ∀ (n : Nat) (xs ys : timeSortableArticles), heapSortBuild hi first n xs = some ys →
      HeapFrom first hi n xs →
      RangePerm first (first + hi) xs ys ∧ HeapFrom first hi 0 ys := by
  intro n
  induction n with
  | zero =>
    intro xs ys h hh
    simp only [heapSortBuild, Option.some.injEq] at h
    subst h
    exact ⟨RangePerm.refl _ _ _, hh⟩
  | succ i ih =>
    intro xs ys h hh
    rw [heapSortBuild] at h
    cases hs : siftDown hi first (hi + 1) i xs with
    | none => simp [hs] at h
    | some zs =>
      simp only [hs] at h
      obtain ⟨r1, h1⟩ := siftDown_spec hi first i (hi + 1) i xs zs hs le_rfl
        (fun r c hr hri hc hchi => hh r c (by omega) hc hchi)
        (fun r c hr hri hc hchi => by omega)
      obtain ⟨r2, h2⟩ := ih zs ys h h1
      exact ⟨(r1.mono (by omega) le_rfl).trans r2, h2⟩

/-- In a heap the root carries the least key. -/
theorem HeapFrom.root_le {first hi : Nat} {xs : timeSortableArticles}
    (h : HeapFrom first hi 0 xs) : ∀ c, c < hi → keyAt xs (first + 0) ≤ keyAt xs (first + c) := by
  intro c
  induction c using Nat.strong_induction_on with
  | _ c ih =>
    intro hc
    by_cases h0 : c = 0
    · subst h0; exact le_rfl
    · have hp : (c - 1) / 2 < c := by omega
      have h1 := ih ((c - 1) / 2) hp (by omega)
      have h2 := h ((c - 1) / 2) c (Nat.zero_le _) (by omega) hc
      exact h1.trans h2

theorem heapSortPop_spec (first hi : Nat) :
    ∀ (n : Nat) (xs ys : timeSortableArticles), heapSortPop first n xs = some ys →
      n ≤ hi → HeapFrom first n 0 xs → SortedOn (first + n) (first + hi) xs →
      (∀ p q, p < n → n ≤ q → q < hi → keyAt xs (first + q) ≤ keyAt xs (first + p)) →
      RangePerm first (first + hi) xs ys ∧ SortedOn first (first + hi) ys := by
  intro n
  induction n with
  | zero =>
    intro xs ys h _ _ hs _
    simp only [heapSortPop, Option.some.injEq] at h
    subst h
    exact ⟨RangePerm.refl _ _ _, by simpa using hs⟩
  | succ i ih =>
    intro xs ys h hn hh hs hd
    rw [heapSortPop] at h
    cases hsw : Swap xs first (first + i) with
    | none => simp [hsw] at h
    | some zs =>
      simp only [hsw] at h
      cases hsd : siftDown i first (i + 1) 0 zs with
      | none => simp [hsd] at h
      | some ws =>
        simp only [hsd] at h
        have hk := Swap_keyAt hsw
        have hmin := hh.root_le
        have hrp1 : RangePerm first (first + hi) xs zs :=
          RangePerm.of_Swap hsw ⟨by omega, by omega⟩ ⟨by omega, by omega⟩
        have hz0 : keyAt zs (first + 0) = keyAt xs (first + i) := by
          rw [hk]; simp
        have hzi : keyAt zs (first + i) = keyAt xs (first + 0) := by
          rw [hk]
          by_cases hi0 : i = 0
          · subst hi0; simp
          · simp [hi0]
        have hzo : ∀ o, o ≠ 0 → o ≠ i → keyAt zs (first + o) = keyAt xs (first + o) := by
          intro o h1 h2
          rw [hk]
          simp [h1, h2]
        obtain ⟨r2, h2⟩ := siftDown_spec i first 0 (i + 1) 0 zs ws hsd le_rfl
          (by
            intro r c _ hr hc hci
            rw [hzo r hr (by omega), hzo c (by omega) (by omega)]
            exact hh r c (Nat.zero_le _) hc (by omega))
          (by intro r c _ hr; omega)
        simp only [Nat.add_zero] at r2
        have hin : ∀ p, p < i → ∃ p', p' < i ∧ keyAt ws (first + p) = keyAt zs (first + p') := by
          intro p hp
          obtain ⟨k', hk', e⟩ := r2.keyAt_inside (k := first + p) ⟨by omega, by omega⟩
          refine ⟨k' - first, by omega, ?_⟩
          rw [e]
          congr 1
          omega
        have hout : ∀ q, i ≤ q → keyAt ws (first + q) = keyAt zs (first + q) := by
          intro q hq
          exact r2.keyAt_outside (by omega)
        obtain ⟨r3, s3⟩ := ih ws ys h (by omega) h2
          (by
            intro p q hp hpq hq
            obtain ⟨p0, rfl⟩ : ∃ p0, p = first + p0 := ⟨p - first, by omega⟩
            obtain ⟨q0, rfl⟩ : ∃ q0, q = first + q0 := ⟨q - first, by omega⟩
            rw [hout p0 (by omega), hout q0 (by omega), hzo q0 (by omega) (by omega)]
            by_cases hpi : p0 = i
            · subst hpi
              rw [hzi]
              exact hd 0 q0 (by omega) (by omega) (by omega)
            · rw [hzo p0 (by omega) hpi]
              exact hs _ _ (by omega) hpq hq)
          (by
            intro p q hp hq hqh
            obtain ⟨p', hp', e⟩ := hin p hp
            rw [e, hout q hq]
            by_cases hqi : q = i
            · subst hqi
              rw [hzi]
              by_cases hp0 : p' = 0
              · subst hp0
                rw [hz0]
                exact hmin _ (by omega)
              · rw [hzo p' hp0 (by omega)]
                exact hmin _ (by omega)
            · rw [hzo q (by omega) hqi]
              by_cases hp0 : p' = 0
              · subst hp0
                rw [hz0]
                exact hd i q (by omega) (by omega) hqh
              · rw [hzo p' hp0 (by omega)]
                exact hd p' q (by omega) (by omega) hqh)
        exact ⟨hrp1.trans ((r2.mono le_rfl (by omega)).trans r3), s3⟩

theorem heapSort_spec {xs ys : timeSortableArticles} {a b : Nat}
    (h : heapSort xs a b = some ys) (hab : a ≤ b) :
    RangePerm a b xs ys ∧ SortedOn a b ys := by
  unfold heapSort at h
  simp only [] at h
  cases hb : heapSortBuild (b - a) a ((b - a - 1) / 2 + 1) xs with
  | none => simp [hb] at h
  | some zs =>
    simp only [hb] at h
    obtain ⟨r1, h1⟩ := heapSortBuild_spec (b - a) a _ xs zs hb
      (by intro r c hr hc hchi; omega)
    obtain ⟨r2, s2⟩ := heapSortPop_spec a (b - a) (b - a) zs ys h le_rfl h1
      (by intro p q hp hpq hq; omega)
      (by intro p q hp hq hqh; omega)
    have e : a + (b - a) = b := by omega
    rw [e] at r1 r2 s2
    exact ⟨r1.trans r2, s2⟩

/-! ### Partition -/

theorem partitionUp_spec (xs : timeSortableArticles) (a j : Nat) :
    ∀ (n i i' : Nat), partitionUp xs a j n i = some i' → j + 1 - i ≤ n →
      i ≤ i' ∧ (i ≤ j + 1 → i' ≤ j + 1) ∧
      (∀ k, i ≤ k → k < i' → keyAt xs a < keyAt xs k) ∧
      (i' ≤ j → keyAt xs i' ≤ keyAt xs a) := by
  intro n
  induction n with
  | zero =>
    intro i i' h hn
    simp only [partitionUp, Option.some.injEq] at h
    subst h
    exact ⟨le_rfl, fun h => h, fun k h1 h2 => by omega, fun h => by omega⟩
  | succ n ih =>
    intro i i' h hn
    rw [partitionUp] at h
    by_cases hij : i ≤ j
    · simp only [hij, if_true] at h
      cases hl : Less xs i a with
      | none => simp [hl] at h
      | some c =>
        cases c with
        | true =>
          simp only [hl] at h
          have hlt := Less_true hl
          obtain ⟨h1, h2, h3, h4⟩ := ih (i + 1) i' h (by omega)
          refine ⟨by omega, fun _ => h2 (by omega), ?_, h4⟩
          intro k hk1 hk2
          by_cases hki : k = i
          · subst hki; exact hlt
          · exact h3 k (by omega) hk2
        | false =>
          simp only [hl, Option.some.injEq] at h
          subst h
          exact ⟨le_rfl, fun h => h, fun k h1 h2 => by omega, fun _ => Less_false hl⟩
    · simp only [hij, if_false, Option.some.injEq] at h
      subst h
      exact ⟨le_rfl, fun h => h, fun k h1 h2 => by omega, fun h => by omega⟩

theorem partitionDown_spec (xs : timeSortableArticles) (a i : Nat) (hi : 1 ≤ i) :
    ∀ (j j' : Nat), partitionDown xs a i j = some j' →
      j' ≤ j ∧ (i ≤ j + 1 → i ≤ j' + 1) ∧
      (∀ k, j' < k → k ≤ j → keyAt xs k ≤ keyAt xs a) ∧
      (i ≤ j' → keyAt xs a < keyAt xs j') := by
  intro j
  induction j with
  | zero =>
    intro j' h
    simp only [partitionDown, Option.some.injEq] at h
    subst h
    exact ⟨le_rfl, fun h => h, fun k h1 h2 => by omega, fun h => by omega⟩
  | succ j ih =>
    intro j' h
    rw [partitionDown] at h
    by_cases hij : i ≤ j + 1
    · simp only [hij, if_true] at h
      cases hl : Less xs (j + 1) a with
      | none => simp [hl] at h
      | some c =>
        cases c with
        | false =>
          simp only [hl] at h
          have hle := Less_false hl
          obtain ⟨h1, h2, h3, h4⟩ := ih j' h
          refine ⟨by omega, fun _ => ?_, ?_, h4⟩
          · by_cases hij' : i ≤ j
            · exact h2 (by omega)
            · -- i = j + 1 and the scan is over
              have : i = j + 1 := by omega
              subst this
              cases j with
              | zero =>
                simp only [partitionDown, Option.some.injEq] at h
                omega
              | succ j0 =>
                rw [partitionDown] at h
                have : ¬ (j0 + 1 + 1 ≤ j0 + 1) := by omega
                simp only [this, if_false, Option.some.injEq] at h
                omega
          · intro k hk1 hk2
            by_cases hkj : k = j + 1
            · subst hkj; exact hle
            · exact h3 k hk1 (by omega)
        | true =>
          simp only [hl, Option.some.injEq] at h
          subst h
          exact ⟨le_rfl, fun h => h, fun k h1 h2 => by omega, fun _ => Less_true hl⟩
    · simp only [hij, if_false, Option.some.injEq] at h
      subst h
      exact ⟨le_rfl, fun h => h, fun k h1 h2 => by omega, fun h => by omega⟩

theorem partitionLoop_spec (a b : Nat) :
    ∀ (fuel : Nat) (xs ys : timeSortableArticles) (i j m : Nat),
      partitionLoop a fuel xs i j = some (ys, m) →
      a < i → j < b → i ≤ j + 1 →
      (∀ k, a < k → k < i → keyAt xs a < keyAt xs k) →
      (∀ k, j < k → k < b → keyAt xs k ≤ keyAt xs a) →
      RangePerm (a + 1) b xs ys ∧ a ≤ m ∧ m < b ∧
      (∀ k, a < k → k ≤ m → keyAt ys a < keyAt ys k) ∧
      (∀ k, m < k → k < b → keyAt ys k ≤ keyAt ys a) := by
  intro fuel
  induction fuel with
  | zero => intro xs ys i j m h; simp [partitionLoop] at h
  | succ fuel ih =>
    intro xs ys i j m h hai hjb hij hL hR
    rw [partitionLoop] at h
    cases hu : partitionUp xs a j (j + 1 - i) i with
    | none => simp [hu] at h
    | some i' =>
      simp only [hu] at h
      obtain ⟨u1, u2, u3, u4⟩ := partitionUp_spec xs a j _ i i' hu le_rfl
      cases hd : partitionDown xs a i' j with
      | none => simp [hd] at h
      | some j' =>
        simp only [hd] at h
        obtain ⟨d1, d2, d3, d4⟩ := partitionDown_spec xs a i' (by omega) j j' hd
        have hL' : ∀ k, a < k → k < i' → keyAt xs a < keyAt xs k := by
          intro k h1 h2
          by_cases hk : k < i
          · exact hL k h1 hk
          · exact u3 k (by omega) h2
        have hR' : ∀ k, j' < k → k < b → keyAt xs k ≤ keyAt xs a := by
          intro k h1 h2
          by_cases hk : j < k
          · exact hR k hk h2
          · exact d3 k h1 (by omega)
        by_cases hgt : i' > j'
        · simp only [hgt, if_true, Option.some.injEq, Prod.mk.injEq] at h
          obtain ⟨rfl, rfl⟩ := h
          have := d2 (u2 hij)
          refine ⟨RangePerm.refl _ _ _, by omega, by omega, ?_, hR'⟩
          intro k h1 h2
          exact hL' k h1 (by omega)
        · simp only [hgt, if_false] at h
          have hle : i' ≤ j' := by omega
          have k1 := u4 (by omega)
          have k2 := d4 hle
          have hne : i' ≠ j' := by
            rintro rfl
            exact absurd k2 (not_lt.mpr k1)
          cases hs : Swap xs i' j' with
          | none => simp [hs] at h
          | some zs =>
            simp only [hs] at h
            have hk := Swap_keyAt hs
            have hrp : RangePerm (a + 1) b xs zs :=
              RangePerm.of_Swap hs ⟨by omega, by omega⟩ ⟨by omega, by omega⟩
            have hka : keyAt zs a = keyAt xs a := hrp.keyAt_outside (by omega)
            obtain ⟨r1, r2, r3, r4, r5⟩ := ih zs ys (i' + 1) (j' - 1) m h (by omega)
              (by omega) (by omega)
              (by
                intro k h1 h2
                rw [hka, hk]
                by_cases hki : k = i'
                · subst hki; simp only [if_true]; exact k2
                · have : ¬ k = j' := by omega
                  simp only [hki, this, if_false]
                  exact hL' k h1 (by omega))
              (by
                intro k h1 h2
                rw [hka, hk]
                have hki : ¬ k = i' := by omega
                by_cases hkj : k = j'
                · subst hkj; simp only [hki, if_false, if_true]; exact k1
                · simp only [hki, hkj, if_false]
                  exact hR' k (by omega) h2)
            exact ⟨hrp.trans r1, r2, r3, r4, r5⟩

/-- What `partition` leaves behind: the pivot at `mid`, keys not below it on the left,
keys not above it on the right. -/
theorem partition_spec {xs ys : timeSortableArticles} {a b pivot mid : Nat} {f : Bool}
    (h : partition xs a b pivot = some (ys, mid, f)) (hp : a ≤ pivot ∧ pivot < b) :
    RangePerm a b xs ys ∧ a ≤ mid ∧ mid < b ∧ keyAt ys mid = keyAt xs pivot ∧
      (∀ k, a ≤ k → k < mid → keyAt ys mid ≤ keyAt ys k) ∧
      (∀ k, mid < k → k < b → keyAt ys k ≤ keyAt ys mid) := by
  unfold partition at h
  cases hs0 : Swap xs a pivot with
  | none => simp [hs0] at h
  | some x1 =>
    simp only [hs0] at h
    have hrp0 : RangePerm a b xs x1 := RangePerm.of_Swap hs0 ⟨le_rfl, by omega⟩ hp
    have hka0 : keyAt x1 a = keyAt xs pivot := by
      rw [Swap_keyAt hs0]; simp
    cases hu : partitionUp x1 a (b - 1) (b - 1 + 1 - (a + 1)) (a + 1) with
    | none => simp only [hu] at h; simp at h
    | some i' =>
      simp only [hu] at h
      obtain ⟨u1, u2, u3, u4⟩ := partitionUp_spec x1 a (b - 1) _ (a + 1) i' hu (by omega)
      cases hd : partitionDown x1 a i' (b - 1) with
      | none => simp [hd] at h
      | some j' =>
        simp only [hd] at h
        obtain ⟨d1, d2, d3, d4⟩ := partitionDown_spec x1 a i' (by omega) (b - 1) j' hd
        have hij := d2 (u2 (by omega))
        -- the final swap with the pivot slot
        have fin : ∀ (zs ws : timeSortableArticles) (m : Nat), Swap zs m a = some ws →
            RangePerm (a + 1) b x1 zs → a ≤ m → m < b →
            (∀ k, a < k → k ≤ m → keyAt zs a < keyAt zs k) →
            (∀ k, m < k → k < b → keyAt zs k ≤ keyAt zs a) →
            RangePerm a b xs ws ∧ a ≤ m ∧ m < b ∧ keyAt ws m = keyAt xs pivot ∧
              (∀ k, a ≤ k → k < m → keyAt ws m ≤ keyAt ws k) ∧
              (∀ k, m < k → k < b → keyAt ws k ≤ keyAt ws m) := by
          intro zs ws m hsw hrp ham hmb hL hR
          have hk := Swap_keyAt hsw
          have hza : keyAt zs a = keyAt xs pivot := by
            rw [hrp.keyAt_outside (by omega), hka0]
          have hrpw : RangePerm a b zs ws :=
            RangePerm.of_Swap hsw ⟨ham, hmb⟩ ⟨le_rfl, by omega⟩
          have hwm : keyAt ws m = keyAt zs a := by rw [hk]; simp
          refine ⟨hrp0.trans ((hrp.mono (by omega) le_rfl).trans hrpw), ham, hmb,
            by rw [hwm, hza], ?_, ?_⟩
          · intro k h1 h2
            rw [hwm, hk]
            have hkm : ¬ k = m := by omega
            by_cases hka : k = a
            · subst hka
              simp only [hkm, if_false, if_true]
              exact (hL m (by omega) le_rfl).le
            · simp only [hkm, hka, if_false]
              exact (hL k (by omega) (by omega)).le
          · intro k h1 h2
            rw [hwm, hk]
            have hkm : ¬ k = m := by omega
            have hka : ¬ k = a := by omega
            simp only [hkm, hka, if_false]
            exact hR k h1 h2
        by_cases hgt : i' > j'
        · simp only [hgt, if_true] at h
          cases hs1 : Swap x1 j' a with
          | none => simp [hs1] at h
          | some y1 =>
            simp only [hs1, Option.some.injEq, Prod.mk.injEq] at h
            obtain ⟨rfl, rfl, -⟩ := h
            exact fin x1 y1 j' hs1 (RangePerm.refl _ _ _) (by omega) (by omega)
              (fun k h1 h2 => u3 k (by omega) (by omega))
              (fun k h1 h2 => d3 k h1 (by omega))
        · simp only [hgt, if_false] at h
          have hle : i' ≤ j' := by omega
          have k1 := u4 (by omega)
          have k2 := d4 hle
          have hne : i' ≠ j' := by
            rintro rfl
            exact absurd k2 (not_lt.mpr k1)
          cases hs : Swap x1 i' j' with
          | none => simp [hs] at h
          | some zs =>
            simp only [hs] at h
            have hk := Swap_keyAt hs
            have hrp : RangePerm (a + 1) b x1 zs :=
              RangePerm.of_Swap hs ⟨by omega, by omega⟩ ⟨by omega, by omega⟩
            have hka : keyAt zs a = keyAt x1 a := hrp.keyAt_outside (by omega)
            cases hlp : partitionLoop a (b - a) zs (i' + 1) (j' - 1) with
            | none => simp [hlp] at h
            | some r =>
              obtain ⟨ws, m⟩ := r
              simp only [hlp] at h
              cases hs2 : Swap ws m a with
              | none => simp [hs2] at h
              | some vs =>
                simp only [hs2, Option.some.injEq, Prod.mk.injEq] at h
                obtain ⟨rfl, rfl, -⟩ := h
                obtain ⟨r1, r2, r3, r4, r5⟩ := partitionLoop_spec a b _ zs ws (i' + 1) (j' - 1) m
                  hlp (by omega) (by omega) (by omega)
                  (by
                    intro k h1 h2
                    rw [hka, hk]
                    by_cases hki : k = i'
                    · subst hki; simp only [if_true]; exact k2
                    · have : ¬ k = j' := by omega
                      simp only [hki, this, if_false]
                      exact u3 k (by omega) (by omega))
                  (by
                    intro k h1 h2
                    rw [hka, hk]
                    have hki : ¬ k = i' := by omega
                    by_cases hkj : k = j'
                    · subst hkj; simp only [hki, if_false, if_true]; exact k1
                    · simp only [hki, hkj, if_false]
                      exact d3 k (by omega) (by omega))
                exact fin ws vs m hs2 (hrp.trans r1) r2 r3 r4 r5

/-! ### Partition of equal entries -/

theorem partitionEqualUp_spec (xs : timeSortableArticles) (a j : Nat) :
    ∀ (n i i' : Nat), partitionEqualUp xs a j n i = some i' → j + 1 - i ≤ n →
      i ≤ i' ∧ (i ≤ j + 1 → i' ≤ j + 1) ∧
      (∀ k, i ≤ k → k < i' → keyAt xs a ≤ keyAt xs k) ∧
      (i' ≤ j → keyAt xs i' < keyAt xs a) := by
  intro n
  induction n with
  | zero =>
    intro i i' h hn
    simp only [partitionEqualUp, Option.some.injEq] at h
    subst h
    exact ⟨le_rfl, fun h => h, fun k h1 h2 => by omega, fun h => by omega⟩
  | succ n ih =>
    intro i i' h hn
    rw [partitionEqualUp] at h
    by_cases hij : i ≤ j
    · simp only [hij, if_true] at h
      cases hl : Less xs a i with
      | none => simp [hl] at h
      | some c =>
        cases c with
        | false =>
          simp only [hl] at h
          have hle := Less_false hl
          obtain ⟨h1, h2, h3, h4⟩ := ih (i + 1) i' h (by omega)
          refine ⟨by omega, fun _ => h2 (by omega), ?_, h4⟩
          intro k hk1 hk2
          by_cases hki : k = i
          · subst hki; exact hle
          · exact h3 k (by omega) hk2
        | true =>
          simp only [hl, Option.some.injEq] at h
          subst h
          exact ⟨le_rfl, fun h => h, fun k h1 h2 => by omega, fun _ => Less_true hl⟩
    · simp only [hij, if_false, Option.some.injEq] at h
      subst h
      exact ⟨le_rfl, fun h => h, fun k h1 h2 => by omega, fun h => by omega⟩

theorem partitionEqualDown_spec (xs : timeSortableArticles) (a i : Nat) (hi : 1 ≤ i) :
    ∀ (j j' : Nat), partitionEqualDown xs a i j = some j' →
      j' ≤ j ∧ (i ≤ j + 1 → i ≤ j' + 1) ∧
      (∀ k, j' < k → k ≤ j → keyAt xs k < keyAt xs a) ∧
      (i ≤ j' → keyAt xs a ≤ keyAt xs j') := by
  intro j
  induction j with
  | zero =>
    intro j' h
    simp only [partitionEqualDown, Option.some.injEq] at h
    subst h
    exact ⟨le_rfl, fun h => h, fun k h1 h2 => by omega, fun h => by omega⟩
  | succ j ih =>
    intro j' h
    rw [partitionEqualDown] at h
    by_cases hij : i ≤ j + 1
    · simp only [hij, if_true] at h
      cases hl : Less xs a (j + 1) with
      | none => simp [hl] at h
      | some c =>
        cases c with
        | true =>
          simp only [hl] at h
          have hlt := Less_true hl
          obtain ⟨h1, h2, h3, h4⟩ := ih j' h
          refine ⟨by omega, fun _ => ?_, ?_, h4⟩
          · by_cases hij' : i ≤ j
            · exact h2 (by omega)
            · have : i = j + 1 := by omega
              subst this
              cases j with
              | zero =>
                simp only [partitionEqualDown, Option.some.injEq] at h
                omega
              | succ j0 =>
                rw [partitionEqualDown] at h
                have : ¬ (j0 + 1 + 1 ≤ j0 + 1) := by omega
                simp only [this, if_false, Option.some.injEq] at h
                omega
          · intro k hk1 hk2
            by_cases hkj : k = j + 1
            · subst hkj; exact hlt
            · exact h3 k hk1 (by omega)
        | false =>
          simp only [hl, Option.some.injEq] at h
          subst h
          exact ⟨le_rfl, fun h => h, fun k h1 h2 => by omega, fun _ => Less_false hl⟩
    · simp only [hij, if_false, Option.some.injEq] at h
      subst h
      exact ⟨le_rfl, fun h => h, fun k h1 h2 => by omega, fun h => by omega⟩

theorem partitionEqualLoop_spec (a b : Nat) :
    ∀ (fuel : Nat) (xs ys : timeSortableArticles) (i j m : Nat),
      partitionEqualLoop a fuel xs i j = some (ys, m) →
      a < i → j < b → i ≤ j + 1 →
      (∀ k, a < k → k < i → keyAt xs a ≤ keyAt xs k) →
      (∀ k, j < k → k < b → keyAt xs k < keyAt xs a) →
      RangePerm (a + 1) b xs ys ∧ a < m ∧ m ≤ b ∧
      (∀ k, a < k → k < m → keyAt ys a ≤ keyAt ys k) ∧
      (∀ k, m ≤ k → k < b → keyAt ys k < keyAt ys a) := by
  intro fuel
  induction fuel with
  | zero => intro xs ys i j m h; simp [partitionEqualLoop] at h
  | succ fuel ih =>
    intro xs ys i j m h hai hjb hij hL hR
    rw [partitionEqualLoop] at h
    cases hu : partitionEqualUp xs a j (j + 1 - i) i with
    | none => simp [hu] at h
    | some i' =>
      simp only [hu] at h
      obtain ⟨u1, u2, u3, u4⟩ := partitionEqualUp_spec xs a j _ i i' hu le_rfl
      cases hd : partitionEqualDown xs a i' j with
      | none => simp [hd] at h
      | some j' =>
        simp only [hd] at h
        obtain ⟨d1, d2, d3, d4⟩ := partitionEqualDown_spec xs a i' (by omega) j j' hd
        have hL' : ∀ k, a < k → k < i' → keyAt xs a ≤ keyAt xs k := by
          intro k h1 h2
          by_cases hk : k < i
          · exact hL k h1 hk
          · exact u3 k (by omega) h2
        have hR' : ∀ k, j' < k → k < b → keyAt xs k < keyAt xs a := by
          intro k h1 h2
          by_cases hk : j < k
          · exact hR k hk h2
          · exact d3 k h1 (by omega)
        by_cases hgt : i' > j'
        · simp only [hgt, if_true, Option.some.injEq, Prod.mk.injEq] at h
          obtain ⟨rfl, rfl⟩ := h
          have := d2 (u2 hij)
          refine ⟨RangePerm.refl _ _ _, by omega, by omega, hL', ?_⟩
          intro k h1 h2
          exact hR' k (by omega) h2
        · simp only [hgt, if_false] at h
          have hle : i' ≤ j' := by omega
          have k1 := u4 (by omega)
          have k2 := d4 hle
          have hne : i' ≠ j' := by
            rintro rfl
            exact absurd k1 (not_lt.mpr k2)
          cases hs : Swap xs i' j' with
          | none => simp [hs] at h
          | some zs =>
            simp only [hs] at h
            have hk := Swap_keyAt hs
            have hrp : RangePerm (a + 1) b xs zs :=
              RangePerm.of_Swap hs ⟨by omega, by omega⟩ ⟨by omega, by omega⟩
            have hka : keyAt zs a = keyAt xs a := hrp.keyAt_outside (by omega)
            obtain ⟨r1, r2, r3, r4, r5⟩ := ih zs ys (i' + 1) (j' - 1) m h (by omega)
              (by omega) (by omega)
              (by
                intro k h1 h2
                rw [hka, hk]
                by_cases hki : k = i'
                · subst hki; simp only [if_true]; exact k2
                · have : ¬ k = j' := by omega
                  simp only [hki, this, if_false]
                  exact hL' k h1 (by omega))
              (by
                intro k h1 h2
                rw [hka, hk]
                have hki : ¬ k = i' := by omega
                by_cases hkj : k = j'
                · subst hkj; simp only [hki, if_false, if_true]; exact k1
                · simp only [hki, hkj, if_false]
                  exact hR' k (by omega) h2)
            exact ⟨hrp.trans r1, r2, r3, r4, r5⟩

/-- What `partitionEqual` leaves behind: keys not below the pivot's on `[a, mid)`,
keys strictly below it from `mid` on. -/
theorem partitionEqual_spec {xs ys : timeSortableArticles} {a b pivot mid : Nat}
    (h : partitionEqual xs a b pivot = some (ys, mid)) (hp : a ≤ pivot ∧ pivot < b) :
    RangePerm a b xs ys ∧ a < mid ∧ mid ≤ b ∧
      (∀ k, a ≤ k → k < mid → keyAt xs pivot ≤ keyAt ys k) ∧
      (∀ k, mid ≤ k → k < b → keyAt ys k < keyAt xs pivot) := by
  unfold partitionEqual at h
  cases hs0 : Swap xs a pivot with
  | none => simp [hs0] at h
  | some x1 =>
    simp only [hs0] at h
    have hrp0 : RangePerm a b xs x1 := RangePerm.of_Swap hs0 ⟨le_rfl, by omega⟩ hp
    have hka0 : keyAt x1 a = keyAt xs pivot := by
      rw [Swap_keyAt hs0]; simp
    obtain ⟨r1, r2, r3, r4, r5⟩ := partitionEqualLoop_spec a b _ x1 ys (a + 1) (b - 1) mid h
      (by omega) (by omega) (by omega) (fun k h1 h2 => by omega) (fun k h1 h2 => by omega)
    have hya : keyAt ys a = keyAt xs pivot := by
      rw [r1.keyAt_outside (by omega), hka0]
    refine ⟨hrp0.trans (r1.mono (by omega) le_rfl), r2, r3, ?_, ?_⟩
    · intro k h1 h2
      rw [← hya]
      by_cases hka : k = a
      · subst hka; exact le_rfl
      · exact r4 k (by omega) h2
    · intro k h1 h2
      rw [← hya]
      exact r5 k h1 h2

/-! ### Partial insertion sort -/

theorem Bounded.of_RangePerm {a b : Nat} {xs ys : timeSortableArticles}
    (hb : Bounded a b xs) (h : RangePerm a b xs ys) : Bounded a b ys := by
  intro ha k h1 h2
  obtain ⟨k', hk', e⟩ := h.keyAt_inside ⟨h1, h2⟩
  rw [e, h.keyAt_outside (by omega)]
  exact hb ha k' hk'.1 hk'.2

theorem SortedOn.of_RangePerm_outside {a b c d : Nat} {xs ys : timeSortableArticles}
    (hs : SortedOn a b xs) (h : RangePerm c d xs ys) (hd : b ≤ c ∨ d ≤ a) :
    SortedOn a b ys := by
  intro p q h1 h2 h3
  rw [h.keyAt_outside (by omega), h.keyAt_outside (by omega)]
  exact hs p q h1 h2 h3

theorem partialScan_spec (xs : timeSortableArticles) (a b : Nat) :
    ∀ (n i i' : Nat), partialScan xs b n i = some i' → b - i ≤ n → a < i →
      SortedOn a i xs →
      i ≤ i' ∧ (i ≤ b → i' ≤ b) ∧ SortedOn a i' xs ∧
      (i' < b → keyAt xs (i' - 1) < keyAt xs i') := by
  intro n
  induction n with
  | zero =>
    intro i i' h hn hai hs
    simp only [partialScan, Option.some.injEq] at h
    subst h
    exact ⟨le_rfl, fun h => h, hs, fun h => by omega⟩
  | succ n ih =>
    intro i i' h hn hai hs
    rw [partialScan] at h
    by_cases hib : i < b
    · simp only [hib, if_true] at h
      cases hl : Less xs i (i - 1) with
      | none => simp [hl] at h
      | some c =>
        cases c with
        | false =>
          simp only [hl] at h
          have hle := Less_false hl
          have hs' : SortedOn a (i + 1) xs := by
            intro p q h1 h2 h3
            by_cases hq : q = i
            · subst hq
              by_cases hp : p = q - 1
              · subst hp; exact hle
              · exact hle.trans (hs p (q - 1) h1 (by omega) (by omega))
            · exact hs p q h1 h2 (by omega)
          obtain ⟨h1, h2, h3, h4⟩ := ih (i + 1) i' h (by omega) (by omega) hs'
          exact ⟨by omega, fun _ => h2 (by omega), h3, h4⟩
        | true =>
          simp only [hl, Option.some.injEq] at h
          subst h
          exact ⟨le_rfl, fun h => h, hs, fun _ => Less_true hl⟩
    · simp only [hib, if_false, Option.some.injEq] at h
      subst h
      exact ⟨le_rfl, fun h => h, hs, fun h => by omega⟩

/-- Under `Bounded`, the left shift of `partialInsertionSort` (which runs down to index 1)
stops at `a` and is the inner loop of `insertionSort`. -/
theorem partialShiftLeft_eq (a b : Nat) :
    ∀ (j : Nat) (xs ys : timeSortableArticles), partialShiftLeft j xs = some ys →
      a ≤ j → j < b → Bounded a b xs → insertionSortInner a j xs = some ys := by
  intro j
  induction j with
  | zero =>
    intro xs ys h _ _ _
    simpa [partialShiftLeft, insertionSortInner] using h
  | succ j ih =>
    intro xs ys h haj hjb hb
    rw [partialShiftLeft] at h
    rw [insertionSortInner]
    by_cases hja : j + 1 > a
    · simp only [hja, if_true]
      cases hl : Less xs (j + 1) j with
      | none => simp [hl] at h
      | some c =>
        cases c with
        | false => simpa [hl] using h
        | true =>
          simp only [hl] at h ⊢
          cases hs : Swap xs (j + 1) j with
          | none => simp [hs] at h
          | some zs =>
            simp only [hs] at h ⊢
            have hrp : RangePerm a b xs zs :=
              RangePerm.of_Swap hs ⟨by omega, by omega⟩ ⟨by omega, by omega⟩
            exact ih zs ys h (by omega) (by omega) (hb.of_RangePerm hrp)
    · simp only [hja, if_false]
      have haj' : a = j + 1 := by omega
      cases hl : Less xs (j + 1) j with
      | none => simp [hl] at h
      | some c =>
        cases c with
        | false => simpa [hl] using h
        | true =>
          exfalso
          have hlt := Less_true hl
          have := hb (by omega) (j + 1) (by omega) hjb
          rw [haj'] at this
          simp only [Nat.add_sub_cancel] at this
          exact absurd hlt (not_lt.mpr this)

theorem partialShiftRight_spec (a b : Nat) :
    ∀ (n j : Nat) (xs ys : timeSortableArticles), partialShiftRight n j xs = some ys →
      a < j → j + n ≤ b → RangePerm (j - 1) b xs ys := by
  intro n
  induction n with
  | zero =>
    intro j xs ys h _ _
    simp only [partialShiftRight, Option.some.injEq] at h
    subst h
    exact RangePerm.refl _ _ _
  | succ n ih =>
    intro j xs ys h haj hjn
    rw [partialShiftRight] at h
    cases hl : Less xs j (j - 1) with
    | none => simp [hl] at h
    | some c =>
      cases c with
      | false =>
        simp only [hl, Option.some.injEq] at h
        subst h
        exact RangePerm.refl _ _ _
      | true =>
        simp only [hl] at h
        cases hs : Swap xs j (j - 1) with
        | none => simp [hs] at h
        | some zs =>
          simp only [hs] at h
          have hrp : RangePerm (j - 1) b xs zs :=
            RangePerm.of_Swap hs ⟨by omega, by omega⟩ ⟨by omega, by omega⟩
          have := ih (j + 1) zs ys h (by omega) (by omega)
          exact hrp.trans (this.mono (by omega) le_rfl)

theorem partialInsertionSortLoop_spec (a b : Nat) :
    ∀ (steps i : Nat) (xs ys : timeSortableArticles) (f : Bool),
      partialInsertionSortLoop a b steps i xs = some (ys, f) →
      a < i → i ≤ b → SortedOn a i xs → Bounded a b xs →
      RangePerm a b xs ys ∧ (f = true → SortedOn a b ys) := by
  intro steps
  induction steps with
  | zero =>
    intro i xs ys f h _ _ _ _
    simp only [partialInsertionSortLoop, Option.some.injEq, Prod.mk.injEq] at h
    obtain ⟨rfl, rfl⟩ := h
    exact ⟨RangePerm.refl _ _ _, fun h => by simp at h⟩
  | succ steps ih =>
    intro i xs ys f h hai hib hs hb
    rw [partialInsertionSortLoop] at h
    cases hsc : partialScan xs b (b - i) i with
    | none => simp [hsc] at h
    | some i' =>
      simp only [hsc] at h
      obtain ⟨s1, s2, s3, s4⟩ := partialScan_spec xs a b _ i i' hsc le_rfl hai hs
      have hi'b := s2 hib
      by_cases he : i' = b
      · simp only [he, if_true, Option.some.injEq, Prod.mk.injEq] at h
        obtain ⟨rfl, rfl⟩ := h
        exact ⟨RangePerm.refl _ _ _, fun _ => he ▸ s3⟩
      · simp only [he, if_false] at h
        by_cases h50 : b - a < 50
        · simp only [h50, if_true, Option.some.injEq, Prod.mk.injEq] at h
          obtain ⟨rfl, rfl⟩ := h
          exact ⟨RangePerm.refl _ _ _, fun h => by simp at h⟩
        · simp only [h50, if_false] at h
          cases hsw : Swap xs i' (i' - 1) with
          | none => simp [hsw] at h
          | some y1 =>
            simp only [hsw] at h
            have hrp1 : RangePerm a b xs y1 :=
              RangePerm.of_Swap hsw ⟨by omega, by omega⟩ ⟨by omega, by omega⟩
            have hk := Swap_keyAt hsw
            cases hl : (if i' - a ≥ 2 then partialShiftLeft (i' - 1) y1 else some y1) with
            | none => simp [hl] at h
            | some z1 =>
              simp only [hl] at h
              have hz : RangePerm a i' y1 z1 ∧ SortedOn a i' z1 := by
                by_cases h2 : i' - a ≥ 2
                · simp only [h2, if_true] at hl
                  have hin := partialShiftLeft_eq a b (i' - 1) y1 z1 hl (by omega) (by omega)
                    (hb.of_RangePerm hrp1)
                  have := insertionSortInner_spec a (i' - 1) (i' - 1) y1 z1 hin le_rfl
                    (by
                      intro p q h1 h2 h3 h4 h5
                      rw [hk, hk]
                      have e1 : ¬ p = i' := by omega
                      have e2 : ¬ p = i' - 1 := by omega
                      have e3 : ¬ q = i' := by omega
                      have e4 : ¬ q = i' - 1 := by omega
                      simp only [e1, e2, e3, e4, if_false]
                      exact s3 p q h1 h2 (by omega))
                    (by intro q h1 h2; omega)
                  have e : i' - 1 + 1 = i' := by omega
                  rw [e] at this
                  exact this
                · simp only [h2, if_false, Option.some.injEq] at hl
                  subst hl
                  exact ⟨RangePerm.refl _ _ _, fun p q h1 h2 h3 => by omega⟩
              cases hr : (if b - i' ≥ 2 then partialShiftRight (b - (i' + 1)) (i' + 1) z1
                  else some z1) with
              | none => simp [hr] at h
              | some w1 =>
                simp only [hr] at h
                have hw : RangePerm i' b z1 w1 := by
                  by_cases h2 : b - i' ≥ 2
                  · simp only [h2, if_true] at hr
                    have := partialShiftRight_spec a b _ (i' + 1) z1 w1 hr (by omega) (by omega)
                    simpa using this
                  · simp only [h2, if_false, Option.some.injEq] at hr
                    subst hr
                    exact RangePerm.refl _ _ _
                have hrp : RangePerm a b xs w1 :=
                  hrp1.trans ((hz.1.mono le_rfl (by omega)).trans (hw.mono (by omega) le_rfl))
                obtain ⟨r1, r2⟩ := ih i' w1 ys f h (by omega) hi'b
                  (hz.2.of_RangePerm_outside hw (Or.inl le_rfl)) (hb.of_RangePerm hrp)
                exact ⟨hrp.trans r1, r2⟩

theorem partialInsertionSort_spec {xs ys : timeSortableArticles} {a b : Nat} {f : Bool}
    (h : partialInsertionSort xs a b = some (ys, f)) (hab : a < b) (hb : Bounded a b xs) :
    RangePerm a b xs ys ∧ (f = true → SortedOn a b ys) :=
  partialInsertionSortLoop_spec a b 5 (a + 1) xs ys f h (by omega) (by omega)
    (fun p q h1 h2 h3 => by omega) hb

/-! ### Pattern breaking, reversal and pivot choice -/

theorem bitsLen_zero (fuel : Nat) : bitsLen fuel 0 = 0 := by
  cases fuel <;> simp [bitsLen]

theorem two_pow_bitsLen_le (fuel : Nat) : ∀ x, 0 < x → 2 ^ bitsLen fuel x ≤ 2 * x := by
  induction fuel with
  | zero => intro x hx; simp only [bitsLen, pow_zero]; omega
  | succ fuel ih =>
    intro x hx
    have hx0 : ¬ x = 0 := by omega
    simp only [bitsLen, hx0, if_false, pow_succ]
    by_cases h2 : 0 < x / 2
    · have := ih (x / 2) h2
      omega
    · have e : x / 2 = 0 := by omega
      rw [e, bitsLen_zero]
      simp only [pow_zero]
      omega

theorem nextPowerOfTwo_le {length : Nat} (h : 0 < length) :
    nextPowerOfTwo length ≤ 2 * length := by
  unfold nextPowerOfTwo
  rw [Nat.one_shiftLeft]
  exact (Nat.mod_le _ _).trans (two_pow_bitsLen_le 64 length h)

theorem breakPatternsLoop_spec (a b length modulus idx : Nat)
    (hl : 0 < length) (hab : a + length = b) (hm : modulus ≤ 2 * length)
    (hi1 : a + 1 ≤ idx) (hi2 : idx + 2 ≤ b) :
    ∀ (n i random : Nat) (xs ys : timeSortableArticles),
      breakPatternsLoop a length modulus idx n i random xs = some ys → i + n ≤ 3 →
      RangePerm a b xs ys := by
  intro n
  induction n with
  | zero =>
    intro i random xs ys h _
    simp only [breakPatternsLoop, Option.some.injEq] at h
    subst h
    exact RangePerm.refl _ _ _
  | succ n ih =>
    intro i random xs ys h hin
    rw [breakPatternsLoop] at h
    split at h
    · simp at h
    · rename_i zs hs
      have hand : Nat.land (xorshiftNext random) (modulus - 1) ≤ modulus - 1 :=
        Nat.and_le_right
      have hrp : RangePerm a b xs zs := by
        refine RangePerm.of_Swap hs ⟨by omega, by omega⟩ ⟨by omega, ?_⟩
        split_ifs with hc
        · omega
        · omega
      exact hrp.trans (ih (i + 1) _ zs ys h (by omega))

theorem breakPatterns_spec {xs ys : timeSortableArticles} {a b : Nat}
    (h : breakPatterns xs a b = some ys) : RangePerm a b xs ys := by
  unfold breakPatterns at h
  simp only [] at h
  by_cases h8 : b - a ≥ 8
  · simp only [h8, if_true] at h
    exact breakPatternsLoop_spec a b (b - a) _ _ (by omega) (by omega)
      (nextPowerOfTwo_le (by omega)) (by omega) (by omega) 3 0 _ xs ys h (by omega)
  · simp only [h8, if_false, Option.some.injEq] at h
    subst h
    exact RangePerm.refl _ _ _

theorem reverseRangeLoop_spec (a b : Nat) :
    ∀ (n i j : Nat) (xs ys : timeSortableArticles), reverseRangeLoop n i j xs = some ys →
      a ≤ i → j < b → RangePerm a b xs ys := by
  intro n
  induction n with
  | zero =>
    intro i j xs ys h _ _
    simp only [reverseRangeLoop, Option.some.injEq] at h
    subst h
    exact RangePerm.refl _ _ _
  | succ n ih =>
    intro i j xs ys h hai hjb
    rw [reverseRangeLoop] at h
    by_cases hij : i < j
    · simp only [hij, if_true] at h
      cases hs : Swap xs i j with
      | none => simp [hs] at h
      | some zs =>
        simp only [hs] at h
        have hrp : RangePerm a b xs zs :=
          RangePerm.of_Swap hs ⟨by omega, by omega⟩ ⟨by omega, by omega⟩
        exact hrp.trans (ih (i + 1) (j - 1) zs ys h (by omega) (by omega))
    · simp only [hij, if_false, Option.some.injEq] at h
      subst h
      exact RangePerm.refl _ _ _

theorem reverseRange_spec {xs ys : timeSortableArticles} {a b : Nat}
    (h : reverseRange xs a b = some ys) (hab : a < b) : RangePerm a b xs ys :=
  reverseRangeLoop_spec a b _ a (b - 1) xs ys h le_rfl (by omega)

theorem order2_spec {xs : timeSortableArticles} {a b s x y s' : Nat}
    (h : order2 xs a b s = some (x, y, s')) : (x = a ∧ y = b) ∨ (x = b ∧ y = a) := by
  unfold order2 at h
  cases hl : Less xs b a with
  | none => simp [hl] at h
  | some c =>
    cases c with
    | true =>
      simp only [hl, Option.some.injEq, Prod.mk.injEq] at h
      omega
    | false =>
      simp only [hl, Option.some.injEq, Prod.mk.injEq] at h
      omega

theorem median_spec {xs : timeSortableArticles} {a b c s m s' : Nat}
    (h : median xs a b c s = some (m, s')) : m = a ∨ m = b ∨ m = c := by
  unfold median at h
  cases h1 : order2 xs a b s with
  | none => simp [h1] at h
  | some r1 =>
    obtain ⟨a1, b1, s1⟩ := r1
    simp only [h1] at h
    cases h2 : order2 xs b1 c s1 with
    | none => simp [h2] at h
    | some r2 =>
      obtain ⟨b2, c2, s2⟩ := r2
      simp only [h2] at h
      cases h3 : order2 xs a1 b2 s2 with
      | none => simp [h3] at h
      | some r3 =>
        obtain ⟨a3, b3, s3⟩ := r3
        simp only [h3, Option.some.injEq, Prod.mk.injEq] at h
        have e1 := order2_spec h1
        have e2 := order2_spec h2
        have e3 := order2_spec h3
        omega

theorem medianAdjacent_spec {xs : timeSortableArticles} {a s m s' : Nat}
    (h : medianAdjacent xs a s = some (m, s')) : m = a - 1 ∨ m = a ∨ m = a + 1 :=
  median_spec h

/-- The pivot chosen in a range of at least 8 entries lies in the range. -/
theorem choosePivot_spec {xs : timeSortableArticles} {a b pivot : Nat} {hint : sortedHint}
    (h : choosePivot xs a b = some (pivot, hint)) (h8 : b - a ≥ 8) :
    a ≤ pivot ∧ pivot < b := by
  unfold choosePivot at h
  simp only [h8, if_true] at h
  have key : ∀ (r : Option (Nat × Nat)),
      (∀ j s, r = some (j, s) → a ≤ j ∧ j < b) →
      (match r with
        | none => none
        | some (j, swaps) =>
          if swaps = 0 then some (j, sortedHint.increasingHint)
          else if swaps = 12 then some (j, sortedHint.decreasingHint)
          else some (j, sortedHint.unknownHint)) = some (pivot, hint) →
      a ≤ pivot ∧ pivot < b := by
    intro r hr hm
    cases r with
    | none => simp at hm
    | some js =>
      obtain ⟨j, s⟩ := js
      have := hr j s rfl
      simp only at hm
      split_ifs at hm <;>
        (simp only [Option.some.injEq, Prod.mk.injEq] at hm; obtain ⟨rfl, -⟩ := hm; exact this)
  refine key _ ?_ h
  intro j s hr
  by_cases h50 : b - a ≥ 50
  · rw [if_pos h50] at hr
    split at hr
    · simp at hr
    · rename_i i1 s1 h1
      split at hr
      · simp at hr
      · rename_i j2 s2 h2
        split at hr
        · simp at hr
        · rename_i k3 s3 h3
          have e1 := medianAdjacent_spec h1
          have e2 := medianAdjacent_spec h2
          have e3 := medianAdjacent_spec h3
          have e4 := median_spec hr
          omega
  · rw [if_neg h50] at hr
    have e4 := median_spec hr
    omega

/-! ### `pdqsort` and `sort.Sort`: a sorted rearrangement whenever they return -/

theorem Bounded.mono_right {a b b' : Nat} {xs : timeSortableArticles}
    (h : Bounded a b xs) (hb : b' ≤ b) : Bounded a b' xs :=
  fun ha k h1 h2 => h ha k h1 (by omega)

/-- Two sorted halves around a pivot that separates them make a sorted range. -/
theorem SortedOn.glue {a b mid : Nat} {ws : timeSortableArticles}
    (hl : SortedOn a mid ws) (hr : SortedOn (mid + 1) b ws)
    (h1 : ∀ k, a ≤ k → k < mid → keyAt ws mid ≤ keyAt ws k)
    (h2 : ∀ k, mid < k → k < b → keyAt ws k ≤ keyAt ws mid) : SortedOn a b ws := by
  intro p q hap hpq hqb
  rcases Nat.lt_trichotomy q mid with hq | hq | hq
  · exact hl p q hap hpq hq
  · subst hq; exact h1 p hap hpq
  · rcases Nat.lt_trichotomy p mid with hp | hp | hp
    · exact (h2 q hq hqb).trans (h1 p hap hp)
    · subst hp; exact h2 q hq hqb
    · exact hr p q (by omega) hpq hqb

theorem pdqsort_spec :
    ∀ (fuel : Nat) (xs ys : timeSortableArticles) (a b limit : Nat) (wb wp : Bool),
      pdqsort fuel xs a b limit wb wp = some ys → a ≤ b → Bounded a b xs →
      RangePerm a b xs ys ∧ SortedOn a b ys := by
  intro fuel
  induction fuel with
  | zero => intro xs ys a b limit wb wp h; simp [pdqsort] at h
  | succ fuel ih =>
    intro xs ys a b limit wb wp h hab hbd
    rw [pdqsort] at h
    simp only [] at h
    by_cases h12 : b - a ≤ 12
    · rw [if_pos h12] at h
      exact insertionSort_spec h
    rw [if_neg h12] at h
    by_cases hl0 : limit = 0
    · rw [if_pos hl0] at h
      exact heapSort_spec h hab
    rw [if_neg hl0] at h
    split at h
    · simp at h
    rename_i xs1 limit1 hbp
    have r1 : RangePerm a b xs xs1 := by
      cases wb with
      | true =>
        simp only [Bool.not_true, Bool.false_eq_true, if_false, Option.some.injEq,
          Prod.mk.injEq] at hbp
        rw [hbp.1]
        exact RangePerm.refl _ _ _
      | false =>
        simp only [Bool.not_false, if_true, Option.map_eq_some'] at hbp
        obtain ⟨y, hy, e⟩ := hbp
        simp only [Prod.mk.injEq] at e
        rw [← e.1]
        exact breakPatterns_spec hy
    split at h
    · simp at h
    rename_i pivot hint hcp
    have hpv := choosePivot_spec hcp (by omega)
    split at h
    · simp at h
    rename_i xs2 pivot2 hint2 hrev
    have r2 : RangePerm a b xs1 xs2 ∧ a ≤ pivot2 ∧ pivot2 < b := by
      by_cases hd : hint = sortedHint.decreasingHint
      · rw [if_pos hd] at hrev
        simp only [Option.map_eq_some'] at hrev
        obtain ⟨y, hy, e⟩ := hrev
        simp only [Prod.mk.injEq] at e
        obtain ⟨e1, e2, -⟩ := e
        subst e1
        exact ⟨reverseRange_spec hy (by omega), by omega, by omega⟩
      · rw [if_neg hd] at hrev
        simp only [Option.some.injEq, Prod.mk.injEq] at hrev
        obtain ⟨e1, e2, -⟩ := hrev
        subst e1 e2
        exact ⟨RangePerm.refl _ _ _, hpv.1, hpv.2⟩
    obtain ⟨r2, hp2a, hp2b⟩ := r2
    have r12 := r1.trans r2
    have hbd2 : Bounded a b xs2 := hbd.of_RangePerm r12
    have hpis : ∀ (xs3 : timeSortableArticles) (f : Bool),
        (if (wb && wp && decide (hint2 = sortedHint.increasingHint)) = true then
            partialInsertionSort xs2 a b
          else some (xs2, false)) = some (xs3, f) →
        RangePerm a b xs2 xs3 ∧ (f = true → SortedOn a b xs3) := by
      intro xs3 f hpi
      split_ifs at hpi with hc
      · exact partialInsertionSort_spec hpi (by omega) hbd2
      · simp only [Option.some.injEq, Prod.mk.injEq] at hpi
        obtain ⟨rfl, rfl⟩ := hpi
        exact ⟨RangePerm.refl _ _ _, fun h => by simp at h⟩
    split at h
    · simp at h
    · rename_i xs3 hpi
      simp only [Option.some.injEq] at h
      subst h
      obtain ⟨r3, s3⟩ := hpis _ _ hpi
      exact ⟨r12.trans r3, s3 rfl⟩
    rename_i xs3 hpi
    obtain ⟨r3, -⟩ := hpis _ _ hpi
    have r123 := r12.trans r3
    have hbd3 : Bounded a b xs3 := hbd.of_RangePerm r123
    split at h
    · simp at h
    · -- the pivot equals the entry before the range: partitionEqual
      rename_i hless
      have ha0 : a > 0 := by
        by_contra hc
        rw [if_neg hc] at hless
        simp at hless
      rw [if_pos ha0] at hless
      simp only [Option.map_eq_some', Bool.not_eq_true'] at hless
      obtain ⟨c, hc, rfl⟩ := hless
      have hle := Less_false hc
      split at h
      · simp at h
      rename_i y4 mid hpe
      obtain ⟨r4, m1, m2, m3, m4⟩ := partitionEqual_spec hpe ⟨hp2a, hp2b⟩
      have hbd4 : Bounded a b y4 := hbd3.of_RangePerm r4
      have hka : keyAt y4 (a - 1) = keyAt xs3 (a - 1) := r4.keyAt_outside (by omega)
      have heq : ∀ k, a ≤ k → k < mid → keyAt y4 k = keyAt xs3 pivot2 := by
        intro k h1 h2
        apply le_antisymm
        · have := hbd4 ha0 k h1 (by omega)
          rw [hka] at this
          exact this.trans hle
        · exact m3 k h1 h2
      obtain ⟨r5, s5⟩ := ih y4 ys mid b limit1 wb wp h m2
        (by
          intro _ k h1 h2
          rw [heq (mid - 1) (by omega) (by omega)]
          exact (m4 k h1 h2).le)
      refine ⟨r123.trans (r4.trans (r5.mono (by omega) le_rfl)), ?_⟩
      intro p q hap hpq hqb
      by_cases hpm : p < mid
      · rw [r5.keyAt_outside (k := p) (by omega), heq p hap hpm]
        by_cases hqm : q < mid
        · rw [r5.keyAt_outside (k := q) (by omega), heq q (by omega) hqm]
        · obtain ⟨q', hq', e⟩ := r5.keyAt_inside (k := q) ⟨by omega, hqb⟩
          rw [e]
          exact (m4 q' hq'.1 hq'.2).le
      · exact s5 p q (by omega) hpq hqb
    · -- ordinary partition, then both sides
      split at h
      · simp at h
      rename_i y4 mid ap hpt
      obtain ⟨r4, m1, m2, m3, m4, m5⟩ := partition_spec hpt ⟨hp2a, hp2b⟩
      have hbd4 : Bounded a b y4 := hbd3.of_RangePerm r4
      have hbL : Bounded a mid y4 := hbd4.mono_right (by omega)
      have hbR : Bounded (mid + 1) b y4 := by
        intro _ k h1 h2
        simp only [Nat.add_sub_cancel]
        exact m5 k (by omega) h2
      split_ifs at h with hlr
      · split at h
        · simp at h
        rename_i z5 hleft
        obtain ⟨r5, s5⟩ := ih y4 z5 a mid limit1 true true hleft m1 hbL
        have hbR' : Bounded (mid + 1) b z5 := by
          intro _ k h1 h2
          simp only [Nat.add_sub_cancel]
          rw [r5.keyAt_outside (k := k) (by omega), r5.keyAt_outside (k := mid) (by omega)]
          exact m5 k (by omega) h2
        obtain ⟨r6, s6⟩ := ih z5 ys (mid + 1) b limit1 _ _ h (by omega) hbR'
        refine ⟨r123.trans (r4.trans ((r5.mono le_rfl (by omega)).trans
          (r6.mono (by omega) le_rfl))), ?_⟩
        have hmid : keyAt ys mid = keyAt y4 mid := by
          rw [r6.keyAt_outside (by omega), r5.keyAt_outside (by omega)]
        apply SortedOn.glue (s5.of_RangePerm_outside r6 (Or.inl (by omega))) s6
        · intro k h1 h2
          rw [hmid, r6.keyAt_outside (k := k) (by omega)]
          obtain ⟨k', hk', e⟩ := r5.keyAt_inside (k := k) ⟨h1, h2⟩
          rw [e]
          exact m4 k' hk'.1 hk'.2
        · intro k h1 h2
          rw [hmid]
          obtain ⟨k', hk', e⟩ := r6.keyAt_inside (k := k) ⟨by omega, h2⟩
          rw [e, r5.keyAt_outside (k := k') (by omega)]
          exact m5 k' (by omega) hk'.2
      · split at h
        · simp at h
        rename_i z5 hright
        obtain ⟨r5, s5⟩ := ih y4 z5 (mid + 1) b limit1 true true hright (by omega) hbR
        have hbL' : Bounded a mid z5 := by
          intro ha0 k h1 h2
          rw [r5.keyAt_outside (k := k) (by omega), r5.keyAt_outside (k := a - 1) (by omega)]
          exact hbL ha0 k h1 h2
        obtain ⟨r6, s6⟩ := ih z5 ys a mid limit1 _ _ h m1 hbL'
        refine ⟨r123.trans (r4.trans ((r5.mono (by omega) le_rfl).trans
          (r6.mono le_rfl (by omega)))), ?_⟩
        have hmid : keyAt ys mid = keyAt y4 mid := by
          rw [r6.keyAt_outside (by omega), r5.keyAt_outside (by omega)]
        apply SortedOn.glue s6 (s5.of_RangePerm_outside r6 (Or.inr (by omega)))
        · intro k h1 h2
          rw [hmid]
          obtain ⟨k', hk', e⟩ := r6.keyAt_inside (k := k) ⟨h1, h2⟩
          rw [e, r5.keyAt_outside (k := k') (by omega)]
          exact m4 k' hk'.1 hk'.2
        · intro k h1 h2
          rw [hmid, r6.keyAt_outside (k := k) (by omega)]
          obtain ⟨k', hk', e⟩ := r5.keyAt_inside (k := k) ⟨by omega, h2⟩
          rw [e]
          exact m5 k' (by omega) hk'.2

/-- `sort.Sort` on the articles, when it returns, returns a rearrangement of its input
whose keys never increase. -/
theorem sortSort_spec {xs ys : timeSortableArticles} (h : sortSort xs = some ys) :
    ys.Perm xs ∧ SortedOn 0 ys.length ys := by
  unfold sortSort at h
  simp only [Len] at h
  by_cases h1 : xs.length ≤ 1
  · rw [if_pos h1] at h
    simp only [Option.some.injEq] at h
    subst h
    exact ⟨List.Perm.refl _, fun p q _ hpq hq => by omega⟩
  · rw [if_neg h1] at h
    obtain ⟨r, s⟩ := pdqsort_spec _ xs ys 0 xs.length _ true true h (Nat.zero_le _)
      (fun h0 => by omega)
    rw [r.length_eq]
    exact ⟨r.perm, s⟩

/-! ### `sort.Sort` returns when the comparison cannot panic -/

theorem Good.rearranged {n a b : Nat} {xs ys : timeSortableArticles}
    (hg : Good n xs) (h : RangePerm a b xs ys) : Good n ys := by
  refine ⟨h.length_eq.trans hg.1, ?_⟩
  have hp := h.perm
  rcases hg.2 with hs | hs
  · exact Or.inl (fun x hx => hs x (hp.mem_iff.mp hx))
  · exact Or.inr (fun x hx => hs x (hp.mem_iff.mp hx))

theorem Less_total {n i j : Nat} {xs : timeSortableArticles} (hg : Good n xs)
    (hi : i < n) (hj : j < n) : ∃ c, Less xs i j = some c := by
  obtain ⟨hl, hs⟩ := hg
  subst hl
  have e1 : xs[i]? = some xs[i] := List.getElem?_eq_getElem hi
  have e2 : xs[j]? = some xs[j] := List.getElem?_eq_getElem hj
  have m1 : xs[i] ∈ xs := List.getElem_mem hi
  have m2 : xs[j] ∈ xs := List.getElem_mem hj
  unfold Less
  simp only [e1, e2]
  rcases hs with hs | hs
  · have t1 := hs _ m1
    have t2 := hs _ m2
    cases h1 : xs[i].Timestamp with
    | none => exact absurd h1 t1
    | some ti =>
      cases h2 : xs[j].Timestamp with
      | none => exact absurd h2 t2
      | some tj => simp
  · simp [hs _ m1, hs _ m2]

theorem Swap_total {n i j : Nat} {xs : timeSortableArticles} (hg : Good n xs)
    (hi : i < n) (hj : j < n) : ∃ ys, Swap xs i j = some ys := by
  obtain ⟨hl, -⟩ := hg
  subst hl
  unfold Swap
  simp [List.getElem?_eq_getElem hi, List.getElem?_eq_getElem hj]

theorem Good.swapped {n i j : Nat} {xs ys : timeSortableArticles} (hg : Good n xs)
    (h : Swap xs i j = some ys) : Good n ys :=
  hg.rearranged (RangePerm.of_Swap (a := 0) (b := xs.length) h
    ⟨Nat.zero_le _, (Swap_eq_some h).1⟩ ⟨Nat.zero_le _, (Swap_eq_some h).2.1⟩)

theorem insertionSortInner_total (n a : Nat) :
    ∀ (j : Nat) (xs : timeSortableArticles), Good n xs → j < n →
      ∃ ys, insertionSortInner a j xs = some ys ∧ Good n ys := by
  intro j
  induction j with
  | zero => intro xs hg _; exact ⟨xs, rfl, hg⟩
  | succ j ih =>
    intro xs hg hj
    rw [insertionSortInner]
    split_ifs with hja
    · obtain ⟨c, hc⟩ := Less_total hg hj (by omega : j < n)
      rw [hc]
      cases c with
      | false => exact ⟨xs, rfl, hg⟩
      | true =>
        obtain ⟨zs, hz⟩ := Swap_total hg hj (by omega : j < n)
        simp only [hz]
        exact ih zs (hg.swapped hz) (by omega)
    · exact ⟨xs, rfl, hg⟩

theorem insertionSortOuter_total (n a : Nat) :
    ∀ (m i : Nat) (xs : timeSortableArticles), Good n xs → i + m ≤ n →
      ∃ ys, insertionSortOuter a m i xs = some ys ∧ Good n ys := by
  intro m
  induction m with
  | zero => intro i xs hg _; exact ⟨xs, rfl, hg⟩
  | succ m ih =>
    intro i xs hg him
    rw [insertionSortOuter]
    obtain ⟨zs, hz, hgz⟩ := insertionSortInner_total n a i xs hg (by omega)
    simp only [hz]
    exact ih (i + 1) zs hgz (by omega)

theorem insertionSort_total {n a b : Nat} {xs : timeSortableArticles} (hg : Good n xs)
    (hb : b ≤ n) : ∃ ys, insertionSort xs a b = some ys ∧ Good n ys := by
  unfold insertionSort
  by_cases hab : a + 1 ≤ b
  · exact insertionSortOuter_total n a _ _ xs hg (by omega)
  · have e : b - (a + 1) = 0 := by omega
    rw [e]
    exact ⟨xs, rfl, hg⟩

theorem siftDown_total (n hi first : Nat) (hn : first + hi ≤ n) :
    ∀ (fuel root : Nat) (xs : timeSortableArticles), Good n xs → hi - root < fuel →
      ∃ ys, siftDown hi first fuel root xs = some ys ∧ Good n ys := by
  intro fuel
  induction fuel with
  | zero => intro root xs _ h; omega
  | succ fuel ih =>
    intro root xs hg hf
    rw [siftDown]
    simp only []
    split_ifs with hch h2
    · exact ⟨xs, rfl, hg⟩
    · obtain ⟨c, hc⟩ := Less_total hg (by omega : first + (2 * root + 1) < n)
        (by omega : first + (2 * root + 1) + 1 < n)
      simp only [hc]
      have hcs : (if c = true then 2 * root + 1 + 1 else 2 * root + 1) < hi := by
        split_ifs <;> omega
      have hcr : root < (if c = true then 2 * root + 1 + 1 else 2 * root + 1) := by
        split_ifs <;> omega
      obtain ⟨c2, hc2⟩ := Less_total hg (by omega : first + root < n)
        (by omega : first + (if c = true then 2 * root + 1 + 1 else 2 * root + 1) < n)
      simp only [hc2]
      cases c2 with
      | false => exact ⟨xs, rfl, hg⟩
      | true =>
        obtain ⟨zs, hz⟩ := Swap_total hg (by omega : first + root < n)
          (by omega : first + (if c = true then 2 * root + 1 + 1 else 2 * root + 1) < n)
        simp only [hz]
        exact ih _ zs (hg.swapped hz) (by omega)
    · simp only [Bool.false_eq_true, if_false]
      obtain ⟨c2, hc2⟩ := Less_total hg (by omega : first + root < n)
        (by omega : first + (2 * root + 1) < n)
      simp only [hc2]
      cases c2 with
      | false => exact ⟨xs, rfl, hg⟩
      | true =>
        obtain ⟨zs, hz⟩ := Swap_total hg (by omega : first + root < n)
          (by omega : first + (2 * root + 1) < n)
        simp only [hz]
        exact ih _ zs (hg.swapped hz) (by omega)

theorem heapSortBuild_total (n hi first : Nat) (hn : first + hi ≤ n) :
    ∀ (m : Nat) (xs : timeSortableArticles), Good n xs →
      ∃ ys, heapSortBuild hi first m xs = some ys ∧ Good n ys := by
  intro m
  induction m with
  | zero => intro xs hg; exact ⟨xs, rfl, hg⟩
  | succ i ih =>
    intro xs hg
    rw [heapSortBuild]
    obtain ⟨zs, hz, hgz⟩ := siftDown_total n hi first hn (hi + 1) i xs hg (by omega)
    simp only [hz]
    exact ih zs hgz

theorem heapSortPop_total (n first : Nat) :
    ∀ (m : Nat) (xs : timeSortableArticles), Good n xs → first + m ≤ n →
      ∃ ys, heapSortPop first m xs = some ys ∧ Good n ys := by
  intro m
  induction m with
  | zero => intro xs hg _; exact ⟨xs, rfl, hg⟩
  | succ i ih =>
    intro xs hg hm
    rw [heapSortPop]
    obtain ⟨zs, hz⟩ := Swap_total hg (by omega : first < n) (by omega : first + i < n)
    simp only [hz]
    obtain ⟨ws, hw, hgw⟩ := siftDown_total n i first (by omega) (i + 1) 0 zs
      (hg.swapped hz) (by omega)
    simp only [hw]
    exact ih ws hgw (by omega)

theorem heapSort_total {n a b : Nat} {xs : timeSortableArticles} (hg : Good n xs)
    (hab : a ≤ b) (hb : b ≤ n) : ∃ ys, heapSort xs a b = some ys ∧ Good n ys := by
  unfold heapSort
  simp only []
  obtain ⟨zs, hz, hgz⟩ := heapSortBuild_total n (b - a) a (by omega) ((b - a - 1) / 2 + 1) xs hg
  simp only [hz]
  exact heapSortPop_total n a (b - a) zs hgz (by omega)

theorem partitionUp_total {n a j : Nat} {xs : timeSortableArticles} (hg : Good n xs)
    (ha : a < n) (hj : j < n) :
    ∀ (m i : Nat), ∃ i', partitionUp xs a j m i = some i' := by
  intro m
  induction m with
  | zero => intro i; exact ⟨i, rfl⟩
  | succ m ih =>
    intro i
    rw [partitionUp]
    split_ifs with hij
    · obtain ⟨c, hc⟩ := Less_total hg (by omega : i < n) ha
      simp only [hc]
      cases c with
      | true => exact ih (i + 1)
      | false => exact ⟨i, rfl⟩
    · exact ⟨i, rfl⟩

theorem partitionDown_total {n a i : Nat} {xs : timeSortableArticles} (hg : Good n xs)
    (ha : a < n) :
    ∀ (j : Nat), j < n → ∃ j', partitionDown xs a i j = some j' := by
  intro j
  induction j with
  | zero => intro _; exact ⟨0, rfl⟩
  | succ j ih =>
    intro hj
    rw [partitionDown]
    split_ifs with hij
    · obtain ⟨c, hc⟩ := Less_total hg hj ha
      simp only [hc]
      cases c with
      | false => exact ih (by omega)
      | true => exact ⟨j + 1, rfl⟩
    · exact ⟨j + 1, rfl⟩

theorem partitionLoop_total (n a : Nat) (ha : a < n) :
    ∀ (fuel : Nat) (xs : timeSortableArticles) (i j : Nat), Good n xs →
      a < i → j < n → j + 1 - i < fuel →
      ∃ ys m, partitionLoop a fuel xs i j = some (ys, m) ∧ Good n ys := by
  intro fuel
  induction fuel with
  | zero => intro xs i j _ _ _ h; omega
  | succ fuel ih =>
    intro xs i j hg hai hj hf
    rw [partitionLoop]
    obtain ⟨i', hu⟩ := partitionUp_total hg ha hj (j + 1 - i) i
    simp only [hu]
    obtain ⟨u1, u2, -, -⟩ := partitionUp_spec xs a j _ i i' hu le_rfl
    obtain ⟨j', hd⟩ := partitionDown_total (i := i') hg ha j hj
    simp only [hd]
    obtain ⟨d1, d2, -, -⟩ := partitionDown_spec xs a i' (by omega) j j' hd
    split_ifs with hgt
    · exact ⟨xs, j', rfl, hg⟩
    · obtain ⟨zs, hz⟩ := Swap_total hg (by omega : i' < n) (by omega : j' < n)
      simp only [hz]
      exact ih zs (i' + 1) (j' - 1) (hg.swapped hz) (by omega) (by omega) (by omega)

theorem partition_total {n a b pivot : Nat} {xs : timeSortableArticles} (hg : Good n xs)
    (hp : a ≤ pivot ∧ pivot < b) (hb : b ≤ n) :
    ∃ ys mid f, partition xs a b pivot = some (ys, mid, f) ∧ Good n ys := by
  unfold partition
  obtain ⟨x1, h1⟩ := Swap_total hg (by omega : a < n) (by omega : pivot < n)
  simp only [h1]
  have hg1 := hg.swapped h1
  obtain ⟨i', hu⟩ := partitionUp_total hg1 (by omega : a < n) (by omega : b - 1 < n)
    (b - 1 + 1 - (a + 1)) (a + 1)
  rw [hu]
  simp only []
  obtain ⟨u1, u2, -, -⟩ := partitionUp_spec x1 a (b - 1) _ (a + 1) i' hu le_rfl
  obtain ⟨j', hd⟩ := partitionDown_total (i := i') hg1 (by omega : a < n) (b - 1) (by omega)
  simp only [hd]
  obtain ⟨d1, d2, -, -⟩ := partitionDown_spec x1 a i' (by omega) (b - 1) j' hd
  split_ifs with hgt
  · obtain ⟨y1, h2⟩ := Swap_total hg1 (by omega : j' < n) (by omega : a < n)
    simp only [h2]
    exact ⟨_, _, _, rfl, hg1.swapped h2⟩
  · obtain ⟨zs, hz⟩ := Swap_total hg1 (by omega : i' < n) (by omega : j' < n)
    simp only [hz]
    have hgz := hg1.swapped hz
    obtain ⟨ws, m, hl, hgw⟩ := partitionLoop_total n a (by omega) (b - a) zs (i' + 1) (j' - 1)
      hgz (by omega) (by omega) (by omega)
    simp only [hl]
    have hx1 : x1.length = xs.length := (Swap_eq_some h1).2.2.1
    have hrz : RangePerm (a + 1) b x1 zs :=
      RangePerm.of_Swap hz ⟨by omega, by omega⟩ ⟨by omega, by omega⟩
    -- bounds on the split point
    have hm : m < b := by
      have hspec : ∀ (fuel : Nat) (us vs : timeSortableArticles) (i j m : Nat),
          partitionLoop a fuel us i j = some (vs, m) → j < b → m < b := by
        intro fuel
        induction fuel with
        | zero => intro us vs i j m h; simp [partitionLoop] at h
        | succ fuel ih =>
          intro us vs i j m h hjb
          rw [partitionLoop] at h
          split at h
          · simp at h
          rename_i i2 hu2
          split at h
          · simp at h
          rename_i j2 hd2
          have e1 : j2 ≤ j := by
            have hdn : ∀ (j j' : Nat), partitionDown us a i2 j = some j' → j' ≤ j := by
              intro j
              induction j with
              | zero => intro j' h; simp only [partitionDown, Option.some.injEq] at h; omega
              | succ j ihj =>
                intro j' h
                rw [partitionDown] at h
                split_ifs at h
                · split at h
                  · simp at h
                  · have := ihj j' h; omega
                  · simp only [Option.some.injEq] at h; omega
                · simp only [Option.some.injEq] at h; omega
            exact hdn j j2 hd2
          split_ifs at h with hgt2
          · simp only [Option.some.injEq, Prod.mk.injEq] at h
            omega
          · split at h
            · simp at h
            exact ih _ vs (i2 + 1) (j2 - 1) m h (by omega)
      have hb1 : j' - 1 < b := by omega
      exact hspec _ zs ws (i' + 1) (j' - 1) m hl hb1
    obtain ⟨vs, hv⟩ := Swap_total hgw (by omega : m < n) (by omega : a < n)
    simp only [hv]
    exact ⟨_, _, _, rfl, hgw.swapped hv⟩

theorem partitionEqualUp_total {n a j : Nat} {xs : timeSortableArticles} (hg : Good n xs)
    (ha : a < n) (hj : j < n) :
    ∀ (m i : Nat), ∃ i', partitionEqualUp xs a j m i = some i' := by
  intro m
  induction m with
  | zero => intro i; exact ⟨i, rfl⟩
  | succ m ih =>
    intro i
    rw [partitionEqualUp]
    split_ifs with hij
    · obtain ⟨c, hc⟩ := Less_total hg ha (by omega : i < n)
      simp only [hc]
      cases c with
      | false => exact ih (i + 1)
      | true => exact ⟨i, rfl⟩
    · exact ⟨i, rfl⟩

theorem partitionEqualDown_total {n a i : Nat} {xs : timeSortableArticles} (hg : Good n xs)
    (ha : a < n) :
    ∀ (j : Nat), j < n → ∃ j', partitionEqualDown xs a i j = some j' := by
  intro j
  induction j with
  | zero => intro _; exact ⟨0, rfl⟩
  | succ j ih =>
    intro hj
    rw [partitionEqualDown]
    split_ifs with hij
    · obtain ⟨c, hc⟩ := Less_total hg ha hj
      simp only [hc]
      cases c with
      | true => exact ih (by omega)
      | false => exact ⟨j + 1, rfl⟩
    · exact ⟨j + 1, rfl⟩

theorem partitionEqualLoop_total (n a : Nat) (ha : a < n) :
    ∀ (fuel : Nat) (xs : timeSortableArticles) (i j : Nat), Good n xs →
      a < i → j < n → j + 1 - i < fuel →
      ∃ ys m, partitionEqualLoop a fuel xs i j = some (ys, m) ∧ Good n ys := by
  intro fuel
  induction fuel with
  | zero => intro xs i j _ _ _ h; omega
  | succ fuel ih =>
    intro xs i j hg hai hj hf
    rw [partitionEqualLoop]
    obtain ⟨i', hu⟩ := partitionEqualUp_total hg ha hj (j + 1 - i) i
    simp only [hu]
    obtain ⟨u1, u2, -, -⟩ := partitionEqualUp_spec xs a j _ i i' hu le_rfl
    obtain ⟨j', hd⟩ := partitionEqualDown_total (i := i') hg ha j hj
    simp only [hd]
    obtain ⟨d1, d2, -, -⟩ := partitionEqualDown_spec xs a i' (by omega) j j' hd
    split_ifs with hgt
    · exact ⟨xs, i', rfl, hg⟩
    · obtain ⟨zs, hz⟩ := Swap_total hg (by omega : i' < n) (by omega : j' < n)
      simp only [hz]
      exact ih zs (i' + 1) (j' - 1) (hg.swapped hz) (by omega) (by omega) (by omega)

theorem partitionEqual_total {n a b pivot : Nat} {xs : timeSortableArticles} (hg : Good n xs)
    (hp : a ≤ pivot ∧ pivot < b) (hb : b ≤ n) :
    ∃ ys mid, partitionEqual xs a b pivot = some (ys, mid) ∧ Good n ys := by
  unfold partitionEqual
  obtain ⟨x1, h1⟩ := Swap_total hg (by omega : a < n) (by omega : pivot < n)
  simp only [h1]
  exact partitionEqualLoop_total n a (by omega) _ x1 (a + 1) (b - 1) (hg.swapped h1)
    (by omega) (by omega) (by omega)

theorem partialScan_total {n b : Nat} {xs : timeSortableArticles} (hg : Good n xs)
    (hb : b ≤ n) :
    ∀ (m i : Nat), ∃ i', partialScan xs b m i = some i' := by
  intro m
  induction m with
  | zero => intro i; exact ⟨i, rfl⟩
  | succ m ih =>
    intro i
    rw [partialScan]
    split_ifs with hib
    · obtain ⟨c, hc⟩ := Less_total hg (by omega : i < n) (by omega : i - 1 < n)
      simp only [hc]
      cases c with
      | false => exact ih (i + 1)
      | true => exact ⟨i, rfl⟩
    · exact ⟨i, rfl⟩

theorem partialShiftLeft_total (n : Nat) :
    ∀ (j : Nat) (xs : timeSortableArticles), Good n xs → j < n →
      ∃ ys, partialShiftLeft j xs = some ys ∧ Good n ys := by
  intro j
  induction j with
  | zero => intro xs hg _; exact ⟨xs, rfl, hg⟩
  | succ j ih =>
    intro xs hg hj
    rw [partialShiftLeft]
    obtain ⟨c, hc⟩ := Less_total hg hj (by omega : j < n)
    simp only [hc]
    cases c with
    | false => exact ⟨xs, rfl, hg⟩
    | true =>
      obtain ⟨zs, hz⟩ := Swap_total hg hj (by omega : j < n)
      simp only [hz]
      exact ih zs (hg.swapped hz) (by omega)

theorem partialShiftRight_total (n : Nat) :
    ∀ (m j : Nat) (xs : timeSortableArticles), Good n xs → j + m ≤ n →
      ∃ ys, partialShiftRight m j xs = some ys ∧ Good n ys := by
  intro m
  induction m with
  | zero => intro j xs hg _; exact ⟨xs, rfl, hg⟩
  | succ m ih =>
    intro j xs hg hj
    rw [partialShiftRight]
    obtain ⟨c, hc⟩ := Less_total hg (by omega : j < n) (by omega : j - 1 < n)
    simp only [hc]
    cases c with
    | false => exact ⟨xs, rfl, hg⟩
    | true =>
      obtain ⟨zs, hz⟩ := Swap_total hg (by omega : j < n) (by omega : j - 1 < n)
      simp only [hz]
      exact ih (j + 1) zs (hg.swapped hz) (by omega)

theorem partialInsertionSortLoop_total (n a b : Nat) (hb : b ≤ n) :
    ∀ (steps i : Nat) (xs : timeSortableArticles), Good n xs → a < i → i ≤ b →
      ∃ ys f, partialInsertionSortLoop a b steps i xs = some (ys, f) ∧ Good n ys := by
  intro steps
  induction steps with
  | zero => intro i xs hg _ _; exact ⟨xs, false, rfl, hg⟩
  | succ steps ih =>
    intro i xs hg hai hib
    rw [partialInsertionSortLoop]
    obtain ⟨i', hsc⟩ := partialScan_total hg hb (b - i) i
    simp only [hsc]
    have hi' : i ≤ i' ∧ i' ≤ b := by
      have hsp : ∀ (m i i' : Nat), partialScan xs b m i = some i' → i ≤ b →
          i ≤ i' ∧ i' ≤ b := by
        intro m
        induction m with
        | zero => intro i i' h hib; simp only [partialScan, Option.some.injEq] at h; omega
        | succ m ihm =>
          intro i i' h hib
          rw [partialScan] at h
          split_ifs at h
          · split at h
            · simp at h
            · have := ihm (i + 1) i' h (by omega); omega
            · simp only [Option.some.injEq] at h; omega
          · simp only [Option.some.injEq] at h; omega
      exact hsp _ i i' hsc hib
    by_cases he : i' = b
    · rw [if_pos he]
      exact ⟨xs, true, rfl, hg⟩
    rw [if_neg he]
    by_cases h50 : b - a < 50
    · rw [if_pos h50]
      exact ⟨xs, false, rfl, hg⟩
    rw [if_neg h50]
    obtain ⟨y1, hy⟩ := Swap_total hg (by omega : i' < n) (by omega : i' - 1 < n)
    simp only [hy]
    have hg1 := hg.swapped hy
    have hz : ∃ z1, (if i' - a ≥ 2 then partialShiftLeft (i' - 1) y1 else some y1) = some z1 ∧
        Good n z1 := by
      split_ifs
      · exact partialShiftLeft_total n (i' - 1) y1 hg1 (by omega)
      · exact ⟨y1, rfl, hg1⟩
    obtain ⟨z1, hz1, hgz⟩ := hz
    simp only [hz1]
    have hw : ∃ w1, (if b - i' ≥ 2 then partialShiftRight (b - (i' + 1)) (i' + 1) z1
        else some z1) = some w1 ∧ Good n w1 := by
      split_ifs
      · exact partialShiftRight_total n _ (i' + 1) z1 hgz (by omega)
      · exact ⟨z1, rfl, hgz⟩
    obtain ⟨w1, hw1, hgw⟩ := hw
    simp only [hw1]
    exact ih i' w1 hgw (by omega) hi'.2

theorem partialInsertionSort_total {n a b : Nat} {xs : timeSortableArticles} (hg : Good n xs)
    (hab : a < b) (hb : b ≤ n) :
    ∃ ys f, partialInsertionSort xs a b = some (ys, f) ∧ Good n ys :=
  partialInsertionSortLoop_total n a b hb 5 (a + 1) xs hg (by omega) (by omega)

theorem breakPatternsLoop_total (n a b length modulus idx : Nat)
    (hl : 0 < length) (hab : a + length = b) (hm : modulus ≤ 2 * length)
    (hi1 : a + 1 ≤ idx) (hi2 : idx + 2 ≤ b) (hb : b ≤ n) :
    ∀ (m i random : Nat) (xs : timeSortableArticles), Good n xs → i + m ≤ 3 →
      ∃ ys, breakPatternsLoop a length modulus idx m i random xs = some ys ∧ Good n ys := by
  intro m
  induction m with
  | zero => intro i random xs hg _; exact ⟨xs, rfl, hg⟩
  | succ m ih =>
    intro i random xs hg him
    rw [breakPatternsLoop]
    have hand : Nat.land (xorshiftNext random) (modulus - 1) ≤ modulus - 1 :=
      Nat.and_le_right
    have hother : (if Nat.land (xorshiftNext random) (modulus - 1) ≥ length then
        Nat.land (xorshiftNext random) (modulus - 1) - length
        else Nat.land (xorshiftNext random) (modulus - 1)) < length := by
      split_ifs <;> omega
    split
    · rename_i hnone
      obtain ⟨zs, hz⟩ := Swap_total hg (by omega : idx - 1 + i < n)
        (by omega : a + (if Nat.land (xorshiftNext random) (modulus - 1) ≥ length then
          Nat.land (xorshiftNext random) (modulus - 1) - length
          else Nat.land (xorshiftNext random) (modulus - 1)) < n)
      rw [hz] at hnone
      cases hnone
    · rename_i zs hz
      exact ih (i + 1) _ zs (hg.swapped hz) (by omega)

theorem breakPatterns_total {n a b : Nat} {xs : timeSortableArticles} (hg : Good n xs)
    (hb : b ≤ n) : ∃ ys, breakPatterns xs a b = some ys ∧ Good n ys := by
  unfold breakPatterns
  simp only []
  split_ifs with h8
  · exact breakPatternsLoop_total n a b (b - a) _ _ (by omega) (by omega)
      (nextPowerOfTwo_le (by omega)) (by omega) (by omega) hb 3 0 _ xs hg (by omega)
  · exact ⟨xs, rfl, hg⟩

theorem reverseRangeLoop_total (n : Nat) :
    ∀ (m i j : Nat) (xs : timeSortableArticles), Good n xs → j < n →
      ∃ ys, reverseRangeLoop m i j xs = some ys ∧ Good n ys := by
  intro m
  induction m with
  | zero => intro i j xs hg _; exact ⟨xs, rfl, hg⟩
  | succ m ih =>
    intro i j xs hg hj
    rw [reverseRangeLoop]
    split_ifs with hij
    · obtain ⟨zs, hz⟩ := Swap_total hg (by omega : i < n) hj
      simp only [hz]
      exact ih (i + 1) (j - 1) zs (hg.swapped hz) (by omega)
    · exact ⟨xs, rfl, hg⟩

theorem reverseRange_total {n a b : Nat} {xs : timeSortableArticles} (hg : Good n xs)
    (hab : a < b) (hb : b ≤ n) : ∃ ys, reverseRange xs a b = some ys ∧ Good n ys :=
  reverseRangeLoop_total n _ a (b - 1) xs hg (by omega)

theorem order2_total {n a b s : Nat} {xs : timeSortableArticles} (hg : Good n xs)
    (ha : a < n) (hb : b < n) : ∃ r, order2 xs a b s = some r := by
  unfold order2
  obtain ⟨c, hc⟩ := Less_total hg hb ha
  simp only [hc]
  cases c <;> exact ⟨_, rfl⟩

theorem median_total {n a b c s : Nat} {xs : timeSortableArticles} (hg : Good n xs)
    (ha : a < n) (hb : b < n) (hc : c < n) : ∃ r, median xs a b c s = some r := by
  unfold median
  obtain ⟨⟨a1, b1, s1⟩, h1⟩ := order2_total (s := s) hg ha hb
  simp only [h1]
  have e1 := order2_spec h1
  obtain ⟨⟨b2, c2, s2⟩, h2⟩ := order2_total (s := s1) hg (by omega : b1 < n) hc
  simp only [h2]
  have e2 := order2_spec h2
  obtain ⟨⟨a3, b3, s3⟩, h3⟩ := order2_total (s := s2) hg (by omega : a1 < n) (by omega : b2 < n)
  simp only [h3]
  exact ⟨_, rfl⟩

theorem choosePivot_total {n a b : Nat} {xs : timeSortableArticles} (hg : Good n xs)
    (h8 : b - a ≥ 8) (hb : b ≤ n) : ∃ r, choosePivot xs a b = some r := by
  unfold choosePivot
  simp only [h8, if_true]
  split
  · rename_i heq
    exfalso
    by_cases h50 : b - a ≥ 50
    · rw [if_pos h50] at heq
      obtain ⟨⟨i1, s1⟩, h1⟩ := median_total (s := 0) hg
        (by omega : a + (b - a) / 4 * 1 - 1 < n) (by omega : a + (b - a) / 4 * 1 < n)
        (by omega : a + (b - a) / 4 * 1 + 1 < n)
      have e1 := median_spec h1
      obtain ⟨⟨j2, s2⟩, h2⟩ := median_total (s := s1) hg
        (by omega : a + (b - a) / 4 * 2 - 1 < n) (by omega : a + (b - a) / 4 * 2 < n)
        (by omega : a + (b - a) / 4 * 2 + 1 < n)
      have e2 := median_spec h2
      obtain ⟨⟨k3, s3⟩, h3⟩ := median_total (s := s2) hg
        (by omega : a + (b - a) / 4 * 3 - 1 < n) (by omega : a + (b - a) / 4 * 3 < n)
        (by omega : a + (b - a) / 4 * 3 + 1 < n)
      have e3 := median_spec h3
      obtain ⟨v, hv⟩ := median_total (s := s3) hg (by omega : i1 < n) (by omega : j2 < n)
        (by omega : k3 < n)
      unfold medianAdjacent at heq
      rw [h1] at heq
      simp only [] at heq
      rw [h2] at heq
      simp only [] at heq
      rw [h3] at heq
      simp only [] at heq
      rw [hv] at heq
      cases heq
    · rw [if_neg h50] at heq
      obtain ⟨v, hv⟩ := median_total (s := 0) hg (by omega : a + (b - a) / 4 * 1 < n)
        (by omega : a + (b - a) / 4 * 2 < n) (by omega : a + (b - a) / 4 * 3 < n)
      rw [hv] at heq
      cases heq
  · split_ifs <;> exact ⟨_, rfl⟩

theorem pdqsort_total (n : Nat) :
    ∀ (fuel : Nat) (xs : timeSortableArticles) (a b limit : Nat) (wb wp : Bool)
      (r : Option timeSortableArticles),
      pdqsort fuel xs a b limit wb wp = r → Good n xs → a ≤ b → b ≤ n → b - a < fuel →
      ∃ ys, r = some ys ∧ Good n ys := by
  intro fuel
  induction fuel with
  | zero => intro xs a b limit wb wp r _ _ _ _ h; omega
  | succ fuel ih =>
    intro xs a b limit wb wp r h hg hab hbn hf
    rw [pdqsort] at h
    simp only [] at h
    by_cases h12 : b - a ≤ 12
    · rw [if_pos h12] at h
      rw [← h]
      exact insertionSort_total hg hbn
    rw [if_neg h12] at h
    by_cases hl0 : limit = 0
    · rw [if_pos hl0] at h
      rw [← h]
      exact heapSort_total hg hab hbn
    rw [if_neg hl0] at h
    -- breakPatterns
    have hbp := breakPatterns_total (a := a) hg hbn
    split at h
    · rename_i heq
      exfalso
      cases wb with
      | true => simp at heq
      | false =>
        obtain ⟨y, hy, -⟩ := hbp
        simp [hy] at heq
    rename_i xs1 limit1 heq
    have hg1 : Good n xs1 := by
      cases wb with
      | true =>
        simp only [Bool.not_true, Bool.false_eq_true, if_false, Option.some.injEq,
          Prod.mk.injEq] at heq
        rw [← heq.1]
        exact hg
      | false =>
        obtain ⟨y, hy, hgy⟩ := hbp
        simp only [Bool.not_false, if_true, hy, Option.map_some', Option.some.injEq,
          Prod.mk.injEq] at heq
        rw [← heq.1]
        exact hgy
    -- choosePivot
    split at h
    · rename_i hnone
      obtain ⟨v, hv⟩ := choosePivot_total (a := a) hg1 (by omega) hbn
      rw [hv] at hnone
      cases hnone
    rename_i pivot hint hcp
    have hpv := choosePivot_spec hcp (by omega)
    -- reverseRange
    split at h
    · rename_i hnone
      exfalso
      by_cases hd : hint = sortedHint.decreasingHint
      · rw [if_pos hd] at hnone
        obtain ⟨y, hy, -⟩ := reverseRange_total (a := a) hg1 (by omega : a < b) hbn
        simp [hy] at hnone
      · rw [if_neg hd] at hnone
        cases hnone
    rename_i xs2 pivot2 hint2 hrev
    have h2 : Good n xs2 ∧ a ≤ pivot2 ∧ pivot2 < b := by
      by_cases hd : hint = sortedHint.decreasingHint
      · rw [if_pos hd] at hrev
        obtain ⟨y, hy, hgy⟩ := reverseRange_total (a := a) hg1 (by omega : a < b) hbn
        simp only [hy, Option.map_some', Option.some.injEq, Prod.mk.injEq] at hrev
        obtain ⟨e1, e2, -⟩ := hrev
        subst e1
        exact ⟨hgy, by omega, by omega⟩
      · rw [if_neg hd] at hrev
        simp only [Option.some.injEq, Prod.mk.injEq] at hrev
        obtain ⟨e1, e2, -⟩ := hrev
        subst e1 e2
        exact ⟨hg1, hpv.1, hpv.2⟩
    obtain ⟨hg2, hp2a, hp2b⟩ := h2
    -- partialInsertionSort
    have hpis : ∀ (o : Option (timeSortableArticles × Bool)),
        (if (wb && wp && decide (hint2 = sortedHint.increasingHint)) = true then
            partialInsertionSort xs2 a b
          else some (xs2, false)) = o →
        ∃ xs3 f, o = some (xs3, f) ∧ Good n xs3 := by
      intro o ho
      split_ifs at ho with hc
      · rw [← ho]
        exact partialInsertionSort_total hg2 (by omega) hbn
      · rw [← ho]
        exact ⟨xs2, false, rfl, hg2⟩
    split at h
    · rename_i hnone
      obtain ⟨_, _, e, -⟩ := hpis _ hnone
      cases e
    · rename_i xs3 hpi
      obtain ⟨_, _, e, hg3⟩ := hpis _ hpi
      simp only [Option.some.injEq, Prod.mk.injEq] at e
      rw [← h]
      exact ⟨xs3, rfl, e.1 ▸ hg3⟩
    rename_i xs3 hpi
    have hg3 : Good n xs3 := by
      obtain ⟨_, _, e, hg3⟩ := hpis _ hpi
      simp only [Option.some.injEq, Prod.mk.injEq] at e
      exact e.1 ▸ hg3
    -- the comparison with the entry before the range
    split at h
    · rename_i hnone
      exfalso
      by_cases ha0 : a > 0
      · rw [if_pos ha0] at hnone
        obtain ⟨c, hc⟩ := Less_total hg3 (by omega : a - 1 < n) (by omega : pivot2 < n)
        simp [hc] at hnone
      · rw [if_neg ha0] at hnone
        cases hnone
    · split at h
      · rename_i hnone
        obtain ⟨_, _, e, -⟩ := partitionEqual_total hg3 ⟨hp2a, hp2b⟩ hbn
        rw [e] at hnone
        cases hnone
      rename_i y4 mid hpe
      obtain ⟨-, m1, m2, -, -⟩ := partitionEqual_spec hpe ⟨hp2a, hp2b⟩
      have hg4 : Good n y4 := by
        obtain ⟨_, _, e, g⟩ := partitionEqual_total hg3 ⟨hp2a, hp2b⟩ hbn
        rw [e] at hpe
        simp only [Option.some.injEq, Prod.mk.injEq] at hpe
        exact hpe.1 ▸ g
      exact ih y4 mid b limit1 wb wp r h hg4 m2 hbn (by omega)
    · split at h
      · rename_i hnone
        obtain ⟨_, _, _, e, -⟩ := partition_total hg3 ⟨hp2a, hp2b⟩ hbn
        rw [e] at hnone
        cases hnone
      rename_i y4 mid ap hpt
      obtain ⟨-, m1, m2, -, -, -⟩ := partition_spec hpt ⟨hp2a, hp2b⟩
      have hg4 : Good n y4 := by
        obtain ⟨_, _, _, e, g⟩ := partition_total hg3 ⟨hp2a, hp2b⟩ hbn
        rw [e] at hpt
        simp only [Option.some.injEq, Prod.mk.injEq] at hpt
        exact hpt.1 ▸ g
      split_ifs at h with hlr
      · split at h
        · rename_i hnone
          obtain ⟨_, e, -⟩ := ih y4 a mid limit1 true true _ hnone hg4 m1 (by omega) (by omega)
          cases e
        rename_i z5 hleft
        obtain ⟨_, e, hg5⟩ := ih y4 a mid limit1 true true _ hleft hg4 m1 (by omega) (by omega)
        simp only [Option.some.injEq] at e
        subst e
        exact ih _ (mid + 1) b limit1 _ _ r h hg5 (by omega) hbn (by omega)
      · split at h
        · rename_i hnone
          obtain ⟨_, e, -⟩ := ih y4 (mid + 1) b limit1 true true _ hnone hg4 (by omega) hbn
            (by omega)
          cases e
        rename_i z5 hright
        obtain ⟨_, e, hg5⟩ := ih y4 (mid + 1) b limit1 true true _ hright hg4 (by omega) hbn
          (by omega)
        simp only [Option.some.injEq] at e
        subst e
        exact ih _ a mid limit1 _ _ r h hg5 m1 (by omega) (by omega)

/-- On a list the comparison cannot panic on, `sort.Sort` returns. -/
theorem sortSort_total {xs : timeSortableArticles} (hs : Safe xs) :
    ∃ ys, sortSort xs = some ys := by
  unfold sortSort
  simp only [Len]
  split_ifs with h1
  · exact ⟨xs, rfl⟩
  · obtain ⟨ys, e, -⟩ := pdqsort_total xs.length (xs.length + 1) xs 0 xs.length
      (bitsLen 64 xs.length) true true _ rfl ⟨rfl, hs⟩ (Nat.zero_le _) le_rfl (by omega)
    exact ⟨ys, e⟩

/-! ### The fuel is never used up -/

/-- The fuel of `siftDown` is never used up: any two amounts above `hi - root` give the
same outcome. -/
theorem siftDown_fuel (hi first : Nat) :
    ∀ (f₁ f₂ root : Nat) (xs : timeSortableArticles), hi - root < f₁ → hi - root < f₂ →
      siftDown hi first f₁ root xs = siftDown hi first f₂ root xs := by
  intro f₁
  induction f₁ with
  | zero => intro f₂ root xs h; omega
  | succ f₁ ih =>
    intro f₂ root xs h1 h2
    cases f₂ with
    | zero => omega
    | succ f₂ =>
      rw [siftDown, siftDown]
      simp only []
      split
      · rfl
      · rename_i hch
        split
        · rfl
        · rename_i c hc
          split
          · rfl
          · rfl
          · split
            · rfl
            · rename_i ys hs
              have hcs : (if c = true then 2 * root + 1 + 1 else 2 * root + 1) > root := by
                split_ifs <;> omega
              exact ih f₂ _ ys (by omega) (by omega)

/-- The fuel of the loop of `partition` is never used up. -/
theorem partitionLoop_fuel (a : Nat) :
    ∀ (f₁ f₂ : Nat) (xs : timeSortableArticles) (i j : Nat), j + 1 - i < f₁ →
      j + 1 - i < f₂ → a < i →
      partitionLoop a f₁ xs i j = partitionLoop a f₂ xs i j := by
  intro f₁
  induction f₁ with
  | zero => intro f₂ xs i j h; omega
  | succ f₁ ih =>
    intro f₂ xs i j h1 h2 hai
    cases f₂ with
    | zero => omega
    | succ f₂ =>
      rw [partitionLoop, partitionLoop]
      split
      · rfl
      · rename_i i' hu
        obtain ⟨u1, -, -, -⟩ := partitionUp_spec xs a j _ i i' hu le_rfl
        split
        · rfl
        · rename_i j' hd
          obtain ⟨d1, -, -, -⟩ := partitionDown_spec xs a i' (by omega) j j' hd
          split
          · rfl
          · split
            · rfl
            · rename_i ys hs
              exact ih f₂ ys (i' + 1) (j' - 1) (by omega) (by omega) (by omega)

/-- The fuel of the loop of `partitionEqual` is never used up. -/
theorem partitionEqualLoop_fuel (a : Nat) :
    ∀ (f₁ f₂ : Nat) (xs : timeSortableArticles) (i j : Nat), j + 1 - i < f₁ →
      j + 1 - i < f₂ → a < i →
      partitionEqualLoop a f₁ xs i j = partitionEqualLoop a f₂ xs i j := by
  intro f₁
  induction f₁ with
  | zero => intro f₂ xs i j h; omega
  | succ f₁ ih =>
    intro f₂ xs i j h1 h2 hai
    cases f₂ with
    | zero => omega
    | succ f₂ =>
      rw [partitionEqualLoop, partitionEqualLoop]
      split
      · rfl
      · rename_i i' hu
        obtain ⟨u1, -, -, -⟩ := partitionEqualUp_spec xs a j _ i i' hu le_rfl
        split
        · rfl
        · rename_i j' hd
          obtain ⟨d1, -, -, -⟩ := partitionEqualDown_spec xs a i' (by omega) j j' hd
          split
          · rfl
          · split
            · rfl
            · rename_i ys hs
              exact ih f₂ ys (i' + 1) (j' - 1) (by omega) (by omega) (by omega)

/-- The fuel of `pdqsort` is never used up: any two amounts above the length of the
range give the same outcome, on every slice. -/
theorem pdqsort_fuel :
    ∀ (f₁ f₂ : Nat) (xs : timeSortableArticles) (a b limit : Nat) (wb wp : Bool),
      b - a < f₁ → b - a < f₂ →
      pdqsort f₁ xs a b limit wb wp = pdqsort f₂ xs a b limit wb wp := by
  intro f₁
  induction f₁ with
  | zero => intro f₂ xs a b limit wb wp h; omega
  | succ f₁ ih =>
    intro f₂ xs a b limit wb wp h1 h2
    cases f₂ with
    | zero => omega
    | succ f₂ =>
      rw [pdqsort, pdqsort]
      simp only []
      split
      · rfl
      rename_i h12
      split
      · rfl
      split
      · rfl
      rename_i xs1 limit1 hbp
      split
      · rfl
      rename_i pivot hint hcp
      have hpv := choosePivot_spec hcp (by omega)
      split
      · rfl
      rename_i xs2 pivot2 hint2 hrev
      have hp2 : a ≤ pivot2 ∧ pivot2 < b := by
        by_cases hd : hint = sortedHint.decreasingHint
        · rw [if_pos hd] at hrev
          simp only [Option.map_eq_some'] at hrev
          obtain ⟨y, -, e⟩ := hrev
          simp only [Prod.mk.injEq] at e
          omega
        · rw [if_neg hd] at hrev
          simp only [Option.some.injEq, Prod.mk.injEq] at hrev
          omega
      split
      · rfl
      · rfl
      split
      · rfl
      · split
        · rfl
        rename_i y4 mid hpe
        obtain ⟨-, m1, m2, -, -⟩ := partitionEqual_spec hpe hp2
        exact ih f₂ y4 mid b limit1 wb wp (by omega) (by omega)
      · split
        · rfl
        rename_i y4 mid ap hpt
        obtain ⟨-, m1, m2, -, -, -⟩ := partition_spec hpt hp2
        split
        · rw [ih f₂ y4 a mid limit1 true true (by omega) (by omega)]
          split
          · rfl
          · rename_i z5 hz
            exact ih f₂ z5 (mid + 1) b limit1 _ _ (by omega) (by omega)
        · rw [ih f₂ y4 (mid + 1) b limit1 true true (by omega) (by omega)]
          split
          · rfl
          · rename_i z5 hz
            exact ih f₂ z5 a mid limit1 _ _ (by omega) (by omega)

/-- More fuel changes nothing in `sort.Sort`. -/
theorem sortSort_fuel (xs : timeSortableArticles) (k : Nat) (h : 1 < xs.length) :
    pdqsort (xs.length + 1 + k) xs 0 xs.length (bitsLen 64 xs.length) true true =
      sortSort xs := by
  unfold sortSort
  simp only [Len]
  rw [if_neg (by omega)]
  exact pdqsort_fuel _ _ xs 0 xs.length _ true true (by omega) (by omega)

/-! ### The fetcher -/

/-- `get` unfolded along its control flow once `http.NewRequest` has succeeded. -/
theorem get_eq (env : Env) (cache : Cache) (url : String) (hn : env.NewRequest url = none) :
    Fetcher.get env cache url =
      match env.Do ⟨"GET", url, condHeader cache url⟩ with
      | .error e => ⟨.error (.transport e), cache, some ⟨"GET", url, condHeader cache url⟩⟩
      | .ok res =>
        if res.StatusCode = StatusNotModified then
          ⟨.ok (cachedBody cache url), cache, some ⟨"GET", url, condHeader cache url⟩⟩
        else if res.StatusCode ≠ StatusOK then
          ⟨.error (.status res.Status), cache, some ⟨"GET", url, condHeader cache url⟩⟩
        else
          match res.Body with
          | .error e => ⟨.error (.read e), cache, some ⟨"GET", url, condHeader cache url⟩⟩
          | .ok s =>
            ⟨.ok s,
              cache.put url ⟨s, res.headerGet "Last-Modified", res.headerGet "ETag", env.Now⟩,
              some ⟨"GET", url, condHeader cache url⟩⟩ := by
  unfold Fetcher.get
  simp only [hn]
  cases hc : cache url with
  | none =>
    simp only [condHeader, cachedBody, hc, CacheEntry.zero]
    try rfl
  | some e =>
    have hreq : (if e.LastModified ≠ "" then
          (if e.ETag ≠ "" then (⟨"GET", url, []⟩ : Request).headerAdd "If-None-Match" e.ETag
            else ⟨"GET", url, []⟩).headerAdd "If-Modified-Since" e.LastModified
        else (if e.ETag ≠ "" then
          (⟨"GET", url, []⟩ : Request).headerAdd "If-None-Match" e.ETag
            else ⟨"GET", url, []⟩)) = ⟨"GET", url, condHeader cache url⟩ := by
      by_cases h1 : e.ETag = "" <;> by_cases h2 : e.LastModified = "" <;>
        simp [h1, h2, Request.headerAdd, condHeader, hc]
    simp only [hreq, cachedBody, hc]
    try rfl

theorem get_sent (env : Env) (cache : Cache) (url : String) (req : Request)
    (hs : (Fetcher.get env cache url).sent = some req) :
    env.NewRequest url = none ∧ req = ⟨"GET", url, condHeader cache url⟩ := by
  cases hn : env.NewRequest url with
  | some e =>
    unfold Fetcher.get at hs
    simp [hn] at hs
  | none =>
    rw [get_eq env cache url hn] at hs
    refine ⟨rfl, ?_⟩
    split at hs
    · simpa using hs.symm
    · split_ifs at hs
      · simpa using hs.symm
      · simpa using hs.symm
      · split at hs <;> simpa using hs.symm

/-! ### Stability of the insertion sort -/

/-- Swapping two neighbours leaves each timestamp class in its order when the two
timestamps differ. -/
theorem Swap_adjacent_filter (c : Option Time) :
    ∀ (xs ys : timeSortableArticles) (j : Nat) (u v : Article),
      Swap xs (j + 1) j = some ys → xs[j + 1]? = some u → xs[j]? = some v →
      u.Timestamp ≠ v.Timestamp →
      ys.filter (fun x => decide (x.Timestamp = c)) =
        xs.filter (fun x => decide (x.Timestamp = c)) := by
  intro xs
  induction xs with
  | nil => intro ys j u v h hu; simp at hu
  | cons x xs ih =>
    intro ys j u v h hu hv hne
    cases j with
    | zero =>
      cases xs with
      | nil => simp at hu
      | cons y r =>
        simp only [List.getElem?_cons_succ, List.getElem?_cons_zero, Option.some.injEq,
          zero_add] at hu hv
        subst hu hv
        simp only [Swap, zero_add, List.getElem?_cons_succ, List.getElem?_cons_zero,
          List.set_cons_succ, List.set_cons_zero, Option.some.injEq] at h
        subst h
        by_cases h1 : x.Timestamp = c <;> by_cases h2 : y.Timestamp = c
        · exact absurd (h2.trans h1.symm) hne
        · simp [List.filter_cons, h1, h2]
        · simp [List.filter_cons, h1, h2]
        · simp [List.filter_cons, h1, h2]
    | succ j =>
      simp only [List.getElem?_cons_succ] at hu hv
      have hsw : ∃ zs, Swap xs (j + 1) j = some zs ∧ ys = x :: zs := by
        simp only [Swap, List.getElem?_cons_succ, hu, hv, List.set_cons_succ,
          Option.some.injEq] at h ⊢
        exact ⟨_, rfl, h.symm⟩
      obtain ⟨zs, hz, rfl⟩ := hsw
      have := ih zs j u v hz hu hv hne
      simp only [List.filter_cons, this]

theorem Less_true_ne {xs : timeSortableArticles} {i j : Nat}
    (h : Less xs i j = some true) :
    ∃ u v, xs[i]? = some u ∧ xs[j]? = some v ∧ u.Timestamp ≠ v.Timestamp := by
  have hlt := Less_true h
  obtain ⟨hi, hj, -⟩ := Less_eq_some h
  refine ⟨xs[i], xs[j], List.getElem?_eq_getElem hi, List.getElem?_eq_getElem hj, ?_⟩
  intro he
  simp only [keyAt, List.getElem?_eq_getElem hi, List.getElem?_eq_getElem hj, key, he] at hlt
  exact lt_irrefl _ hlt

theorem insertionSortInner_stable (a : Nat) (c : Option Time) :
    ∀ (j : Nat) (xs ys : timeSortableArticles), insertionSortInner a j xs = some ys →
      ys.filter (fun x => decide (x.Timestamp = c)) =
        xs.filter (fun x => decide (x.Timestamp = c)) := by
  intro j
  induction j with
  | zero =>
    intro xs ys h
    simp only [insertionSortInner, Option.some.injEq] at h
    rw [h]
  | succ j ih =>
    intro xs ys h
    rw [insertionSortInner] at h
    split_ifs at h with hja
    · split at h
      · simp at h
      · rename_i hl
        split at h
        · simp at h
        · rename_i zs hs
          obtain ⟨u, v, hu, hv, hne⟩ := Less_true_ne hl
          rw [ih zs ys h]
          exact Swap_adjacent_filter c xs zs j u v hs hu hv hne
      · simp only [Option.some.injEq] at h
        rw [h]
    · simp only [Option.some.injEq] at h
      rw [h]

theorem insertionSortOuter_stable (a : Nat) (c : Option Time) :
    ∀ (n i : Nat) (xs ys : timeSortableArticles), insertionSortOuter a n i xs = some ys →
      ys.filter (fun x => decide (x.Timestamp = c)) =
        xs.filter (fun x => decide (x.Timestamp = c)) := by
  intro n
  induction n with
  | zero =>
    intro i xs ys h
    simp only [insertionSortOuter, Option.some.injEq] at h
    rw [h]
  | succ n ih =>
    intro i xs ys h
    rw [insertionSortOuter] at h
    split at h
    · simp at h
    · rename_i zs hz
      rw [ih (i + 1) zs ys h, insertionSortInner_stable a c i xs zs hz]

/-- Up to 12 articles `sort.Sort` is the insertion sort. -/
theorem sortSort_small {xs : timeSortableArticles} (h : xs.length ≤ 12) :
    sortSort xs = insertionSort xs 0 xs.length := by
  unfold sortSort
  simp only [Len]
  split_ifs with h1
  · unfold insertionSort
    have e : xs.length - (0 + 1) = 0 := by omega
    rw [e]
    rfl
  · rw [pdqsort]
    simp [h]

/-! ### Claims on the fetcher -/

theorem headerGet_eq (res : Response) (key : String) :
    res.headerGet key = (res.Header key).headD "" := by
  unfold Response.headerGet
  cases res.Header key <;> rfl

theorem mem_condHeader (cache : Cache) (url k v : String) :
    (k, v) ∈ condHeader cache url ↔
      (k = "If-None-Match" ∧ ∃ e, cache url = some e ∧ e.ETag ≠ "" ∧ v = e.ETag) ∨
      (k = "If-Modified-Since" ∧
        ∃ e, cache url = some e ∧ e.LastModified ≠ "" ∧ v = e.LastModified) := by
  unfold condHeader
  cases hc : cache url with
  | none => simp
  | some e =>
    by_cases h1 : e.ETag = "" <;> by_cases h2 : e.LastModified = "" <;>
      simp [h1, h2]

/-- C6. When `get` is answered 304 Not Modified for a cached URL it returns the cached
body with no error and leaves the cache as it was. -/
theorem get_not_modified (env : Env) (cache : Cache) (url : String) (e : CacheEntry)
    (req : Request) (res : Response) (hc : cache url = some e)
    (hs : (Fetcher.get env cache url).sent = some req) (hd : env.Do req = .ok res)
    (h304 : res.StatusCode = StatusNotModified) :
    (Fetcher.get env cache url).result = .ok e.Body ∧
      (Fetcher.get env cache url).cache = cache := by
  obtain ⟨hn, hr⟩ := get_sent env cache url req hs
  subst hr
  rw [get_eq env cache url hn, hd]
  simp only [h304, if_true, cachedBody, hc, and_self]

/-- C7. The request `get` hands to the client is a GET of the URL whose header holds
If-None-Match exactly when the URL is cached with a non-empty etag (with that etag),
If-Modified-Since exactly when it is cached with a non-empty lastModified (with that
value), and no other field. -/
theorem get_conditional_headers (env : Env) (cache : Cache) (url : String) (req : Request)
    (hs : (Fetcher.get env cache url).sent = some req) :
    req.Method = "GET" ∧ req.URL = url ∧
      (∀ v, ("If-None-Match", v) ∈ req.Header ↔
        ∃ e, cache url = some e ∧ e.ETag ≠ "" ∧ v = e.ETag) ∧
      (∀ v, ("If-Modified-Since", v) ∈ req.Header ↔
        ∃ e, cache url = some e ∧ e.LastModified ≠ "" ∧ v = e.LastModified) ∧
      (∀ k v, (k, v) ∈ req.Header → k = "If-None-Match" ∨ k = "If-Modified-Since") ∧
      req.Header.length ≤ 2 := by
  obtain ⟨hn, hr⟩ := get_sent env cache url req hs
  subst hr
  have hne : ("If-None-Match" : String) ≠ "If-Modified-Since" := by decide
  refine ⟨rfl, rfl, ?_, ?_, ?_, ?_⟩
  · intro v
    simp only [mem_condHeader, true_and, hne, false_and, or_false]
  · intro v
    simp only [mem_condHeader, true_and, hne.symm, false_and, false_or]
  · intro k v h
    rcases (mem_condHeader cache url k v).mp h with h | h
    · exact Or.inl h.1
    · exact Or.inr h.1
  · show (condHeader cache url).length ≤ 2
    unfold condHeader
    cases cache url with
    | none => simp
    | some e => simp only [List.length_append]; split_ifs <;> simp

/-- C8. On 200 OK with the body read in full as `b`, `get` returns `b` with no error and
stores under the URL the entry made of `b`, the response's ETag and Last-Modified (each
`""` when absent) and the current time; no other URL's entry changes. -/
theorem get_ok_stores (env : Env) (cache : Cache) (url : String) (req : Request)
    (res : Response) (b : String)
    (hs : (Fetcher.get env cache url).sent = some req) (hd : env.Do req = .ok res)
    (h200 : res.StatusCode = StatusOK) (hb : res.Body = .ok b) :
    (Fetcher.get env cache url).result = .ok b ∧
      (Fetcher.get env cache url).cache url =
        some ⟨b, (res.Header "Last-Modified").headD "", (res.Header "ETag").headD "",
          env.Now⟩ ∧
      ∀ u, u ≠ url → (Fetcher.get env cache url).cache u = cache u := by
  obtain ⟨hn, hr⟩ := get_sent env cache url req hs
  subst hr
  have h1 : ¬ res.StatusCode = StatusNotModified := by
    rw [h200]; decide
  have h2 : ¬ (res.StatusCode ≠ StatusOK) := fun h => h h200
  rw [get_eq env cache url hn, hd]
  simp only []
  rw [if_neg h1, if_neg h2, hb]
  refine ⟨rfl, ?_, ?_⟩
  · simp [Cache.put, headerGet_eq]
  · intro u hu
    simp [Cache.put, hu]

/-- C9. When the client reports a transport error, or answers with a status that is
neither 200 nor 304, `get` returns an error and leaves the cache as it was. -/
theorem get_failure_keeps_cache (env : Env) (cache : Cache) (url : String) (req : Request)
    (hs : (Fetcher.get env cache url).sent = some req)
    (hfail : (∃ e, env.Do req = .error e) ∨
      ∃ res, env.Do req = .ok res ∧ res.StatusCode ≠ StatusOK ∧
        res.StatusCode ≠ StatusNotModified) :
    (∃ err, (Fetcher.get env cache url).result = .error err) ∧
      (Fetcher.get env cache url).cache = cache := by
  obtain ⟨hn, hr⟩ := get_sent env cache url req hs
  subst hr
  rw [get_eq env cache url hn]
  rcases hfail with ⟨e, he⟩ | ⟨res, hres, h1, h2⟩
  · rw [he]
    exact ⟨⟨_, rfl⟩, rfl⟩
  · rw [hres]
    simp only []
    rw [if_neg h2, if_pos h1]
    exact ⟨⟨_, rfl⟩, rfl⟩

/-! ### Claims on aggregation, order and truncation -/

theorem appendItems_eq (t : Tools) (feed : Feed) :
    ∀ (items : List Item) (articles : timeSortableArticles),
      appendItems t feed items articles = articles ++ items.map (itemArticle t feed) := by
  intro items
  induction items with
  | nil => intro articles; simp [appendItems]
  | cons i rest ih => intro articles; simp [appendItems, ih]

/-- C10. The combined list a page's URL loop builds is the concatenation, in URL order,
of the articles of the URLs whose fetch and parse both succeeded; a URL that fails adds
nothing and the loop goes on with the next one. -/
theorem pageLoop_articles (t : Tools) (envs : Nat → Env) :
    ∀ (urls : List String) (st : LoopState),
      (pageLoop t envs urls st).articles =
        st.articles ++ specCombined t envs urls st.cache st.calls := by
  intro urls
  induction urls with
  | nil => intro st; simp [pageLoop, specCombined]
  | cons url rest ih =>
    intro st
    rw [pageLoop, specCombined]
    cases hr : (Fetcher.get (envs st.calls) st.cache url).result with
    | error e =>
      simp only [hr, ih, urlFeed, feedArticles, List.nil_append]
    | ok data =>
      cases hp : t.ParseString data with
      | error e =>
        simp only [hr, hp, ih, urlFeed, feedArticles, List.nil_append]
      | ok feed =>
        simp only [hr, hp, ih, urlFeed, feedArticles, appendItems_eq, List.append_assoc]

/-- C3. After `sort.Sort`, of two articles that both carry a timestamp the one placed
first has the later or equal timestamp; and `sort.Sort` does return when every article
carries a timestamp (or none does). -/
theorem sorted_timestamps_nonincreasing (xs : timeSortableArticles) :
    (Safe xs → ∃ ys, sortSort xs = some ys) ∧
      ∀ (ys : timeSortableArticles) (p q : Nat) (x y : Article) (tp tq : Time),
        sortSort xs = some ys → p < q → ys[p]? = some x → ys[q]? = some y →
        x.Timestamp = some tp → y.Timestamp = some tq → tq ≤ tp := by
  refine ⟨sortSort_total, ?_⟩
  intro ys p q x y tp tq h hpq hp hq hx hy
  obtain ⟨-, hs⟩ := sortSort_spec h
  have hql : q < ys.length := (List.getElem?_eq_some_iff.mp hq).1
  have := hs p q (Nat.zero_le _) hpq hql
  simp only [keyAt, hp, hq, key, hx, hy] at this
  exact WithBot.coe_le_coe.mp this

/-- When `sort.Sort` returns, no article without a timestamp stands before one with a
timestamp. -/
theorem sorted_untimed_last (xs ys : timeSortableArticles) (p q : Nat)
    (x y : Article) (h : sortSort xs = some ys) (hpq : p < q)
    (hp : ys[p]? = some x) (hq : ys[q]? = some y)
    (hx : x.Timestamp = none) : y.Timestamp = none := by
  obtain ⟨-, hs⟩ := sortSort_spec h
  have hql : q < ys.length := (List.getElem?_eq_some_iff.mp hq).1
  have := hs p q (Nat.zero_le _) hpq hql
  simp only [keyAt, hp, hq, key, hx] at this
  cases hy : y.Timestamp with
  | none => rfl
  | some t =>
    rw [hy] at this
    exact absurd this (not_le.mpr (WithBot.bot_lt_coe t))

/-- C4, amended. When `sort.Sort` returns `sorted` and `maxArticles` is not negative, the
page's final list exists, has at most `maxArticles` articles, and is the first
`maxArticles` articles of `sorted` when the combined list has more than that, else all
of `sorted`. -/
theorem pageArticles_truncates (articles sorted : timeSortableArticles) (maxArticles : Int)
    (h : sortSort articles = some sorted) (hm : 0 ≤ maxArticles) :
    ∃ final, pageArticles articles maxArticles = some final ∧
      (final.length : Int) ≤ maxArticles ∧
      ((articles.length : Int) > maxArticles → final = sorted.take maxArticles.toNat) ∧
      ((articles.length : Int) ≤ maxArticles → final = sorted) := by
  have hlen : sorted.length = articles.length := (sortSort_spec h).1.length_eq
  unfold pageArticles truncate
  simp only [h]
  have hneg : ¬ maxArticles < 0 := not_lt.mpr hm
  by_cases hgt : (sorted.length : Int) > maxArticles
  · rw [if_pos hgt, if_neg hneg]
    refine ⟨_, rfl, ?_, fun _ => rfl, fun hle => ?_⟩
    · rw [List.length_take]
      omega
    · rw [hlen] at hgt
      omega
  · rw [if_neg hgt]
    refine ⟨_, rfl, by omega, fun hgt2 => ?_, fun _ => rfl⟩
    rw [hlen] at hgt
    exact absurd hgt2 hgt

/-- C5, amended. On a combined list of at most 12 articles, when `sort.Sort` returns,
the articles of each timestamp class (one timestamp value, or no timestamp) keep the
relative order in which they were appended. -/
theorem sort_stable_small (xs ys : timeSortableArticles) (c : Option Time)
    (hlen : xs.length ≤ 12) (h : sortSort xs = some ys) :
    ys.filter (fun x => decide (x.Timestamp = c)) =
      xs.filter (fun x => decide (x.Timestamp = c)) := by
  rw [sortSort_small hlen] at h
  exact insertionSortOuter_stable 0 c _ _ xs ys h

/-! ### Concrete runs -/

/-- C1. On the scenario's combined list (A's item of 2024-01-02, B's item of 2024-01-01,
B's item without timestamp) `sort.Sort` panics: `Less(2, 1)` dereferences the nil
timestamp of the third article. -/
theorem sort_scenario_panics : sortSort scenario = none := by decide

/-- C2. `Less(i, j)` panics, where the claim has it return false, when `a[i]` has no
timestamp and `a[j]` has one. -/
theorem Less_untimed_timed_panics : Less [itemB2, itemB1] 0 1 = none := by decide

/-- Witness of C3 on thirteen articles (the quicksort path): the sort returns, and its
first two articles are in order. -/
theorem sorted_timestamps_nonincreasing_witness :
    sortSort tiedInput = some tiedOutput ∧ (1 : Time) ≤ 2 :=
  ⟨by decide,
    (sorted_timestamps_nonincreasing tiedInput).2 tiedOutput 0 1
      ⟨"n12", "", "", some 2, "", "", ""⟩ ⟨"n6", "", "", some 1, "", "", ""⟩ 2 1
      (by decide) (by decide) rfl rfl rfl rfl⟩

/-- C4 as stated fails: with `maxArticles = 1` the scenario's page has no final list (the
sort panics), and with `maxArticles = -1` an empty page has none either (the slice
expression panics). -/
theorem pageArticles_counterexample :
    pageArticles scenario 1 = none ∧ pageArticles [] (-1) = none := by decide

/-- Witness of C4, amended: one article kept out of two. -/
theorem pageArticles_truncates_witness :
    sortSort timedScenario = some [itemA, itemB1] ∧
      ∃ final, pageArticles timedScenario 1 = some final ∧
        (final.length : Int) ≤ 1 ∧
        ((timedScenario.length : Int) > 1 → final = [itemA, itemB1].take (1 : Int).toNat) ∧
        ((timedScenario.length : Int) ≤ 1 → final = [itemA, itemB1]) :=
  ⟨by decide, pageArticles_truncates timedScenario [itemA, itemB1] 1 (by decide) (by decide)⟩

/-- C5 as stated fails: of thirteen articles, the first twelve with one timestamp,
`sort.Sort` returns `n6` ahead of `n0` and `n1` behind `n11`. -/
theorem sort_not_stable :
    sortSort tiedInput = some tiedOutput ∧
      tiedOutput.filter (fun x => decide (x.Timestamp = some 1)) ≠
        tiedInput.filter (fun x => decide (x.Timestamp = some 1)) := by
  decide

/-- Witness of C5, amended: the two articles of timestamp 1 keep their order. -/
theorem sort_stable_small_witness :
    smallTied.length ≤ 12 ∧ sortSort smallTied = some smallTiedSorted ∧
      smallTiedSorted.filter (fun x => decide (x.Timestamp = some 1)) =
        smallTied.filter (fun x => decide (x.Timestamp = some 1)) :=
  ⟨by decide, by decide,
    sort_stable_small smallTied smallTiedSorted (some 1) (by decide) (by decide)⟩

/-- Witness of C6. -/
theorem get_not_modified_witness :
    oneEntryCache feedUrl = some cachedEntry ∧
      (Fetcher.get (answering notModified) oneEntryCache feedUrl).result =
        .ok cachedEntry.Body ∧
      (Fetcher.get (answering notModified) oneEntryCache feedUrl).cache = oneEntryCache :=
  ⟨rfl, get_not_modified (answering notModified) oneEntryCache feedUrl cachedEntry
    revalidation notModified rfl rfl rfl rfl⟩

/-- Witness of C7. -/
theorem get_conditional_headers_witness :
    (Fetcher.get (answering notModified) oneEntryCache feedUrl).sent = some revalidation ∧
      revalidation.Header.length ≤ 2 :=
  ⟨rfl, (get_conditional_headers (answering notModified) oneEntryCache feedUrl revalidation
    rfl).2.2.2.2.2⟩

/-- Witness of C8. -/
theorem get_ok_stores_witness :
    (Fetcher.get (answering freshBody) oneEntryCache feedUrl).result = .ok "<rss>new</rss>" ∧
      (Fetcher.get (answering freshBody) oneEntryCache feedUrl).cache feedUrl =
        some ⟨"<rss>new</rss>", (freshBody.Header "Last-Modified").headD "",
          (freshBody.Header "ETag").headD "", (answering freshBody).Now⟩ :=
  let h := get_ok_stores (answering freshBody) oneEntryCache feedUrl revalidation freshBody
    "<rss>new</rss>" rfl rfl rfl rfl
  ⟨h.1, h.2.1⟩

/-- Witness of C9. -/
theorem get_failure_keeps_cache_witness :
    (∃ err, (Fetcher.get (answering serverError) oneEntryCache feedUrl).result = .error err) ∧
      (Fetcher.get (answering serverError) oneEntryCache feedUrl).cache = oneEntryCache :=
  get_failure_keeps_cache (answering serverError) oneEntryCache feedUrl revalidation rfl
    (Or.inr ⟨serverError, rfl, by decide, by decide⟩)

/-! ### Further facts -/

/-- `Less` panics exactly when an index is out of range or `a[i]` has no timestamp while
`a[j]` has one. -/
theorem Less_eq_none_iff (a : timeSortableArticles) (i j : Nat) :
    Less a i j = none ↔
      ¬ (i < a.length ∧ j < a.length) ∨
        ∃ x y, a[i]? = some x ∧ a[j]? = some y ∧ x.Timestamp = none ∧ y.Timestamp ≠ none := by
  unfold Less
  cases hi : a[i]? with
  | none =>
    have := List.getElem?_eq_none_iff.mp hi
    simp only [true_iff]
    left
    omega
  | some x =>
    cases hj : a[j]? with
    | none =>
      have := List.getElem?_eq_none_iff.mp hj
      simp only [true_iff]
      left
      omega
    | some y =>
      have hil : i < a.length := (List.getElem?_eq_some_iff.mp hi).1
      have hjl : j < a.length := (List.getElem?_eq_some_iff.mp hj).1
      cases hx : x.Timestamp <;> cases hy : y.Timestamp <;> simp [hil, hjl, hx, hy]

/-- The scenario of a feed that cannot be fetched: the page's list holds the items of
the feed that could. -/
theorem pageLoop_skips_failed_url :
    (pageLoop oneFeedTools firstFails ["https://a.example/feed", "https://b.example/feed"]
      ⟨fun _ => none, 0, []⟩).articles = [itemB1] := by
  decide

end News
